import Mathlib

/-!
Shallow embedding of the OSVG ingestion pipeline
(`src/complete_database_implementation.py`, class `VideoGameDatabase`) and of
the raw-SQL helper class (`src/db_class.py`, class `DB`), together with
verification of the specification's testable properties.

Modelling conventions:
  * pandas NaN / SQL NULL values are modelled as `Option`;
  * a table is a list of rows whose surrogate `_id` is the row's position + 1
    (SQLite assigns `max(_id) + 1` on append, and the pipeline only appends);
  * audit timestamp columns (`created_at`, `updated_at`) are not modelled:
    they carry no information relevant to any claim;
  * `str(int)` / `astype(str)` on identifier columns is modelled by a decimal
    rendering function `natStr`; the sentinel for a missing id is `"None"`.
-/

namespace Osvg

/-- Boolean test that the first character list is a prefix of the second. -/
def charsPrefix : List Char → List Char → Bool
  | [], _ => true
  | _ :: _, [] => false
  | a :: xs, b :: ys => (a == b) && charsPrefix xs ys

/-- Split a character list at every slash, keeping empty segments, as Python
`str.split` with a one-character separator does. -/
def splitSlash : List Char → List (List Char)
  | [] => [[]]
  | c :: cs =>
    let r := splitSlash cs
    if c = '/' then [] :: r
    else
      match r with
      | s :: rest => (c :: s) :: rest
      | [] => [[c]]

/-- Last two elements of a list, as `(second-to-last, last)`; `none` when the
list has fewer than two elements.  Models `parts[-2]`, `parts[-1]` guarded by
`len(parts) >= 2`. -/
def lastTwo : List String → Option (String × String)
  | [a, b] => some (a, b)
  | _ :: b :: rest => lastTwo (b :: rest)
  | _ => none

/-- First-occurrence deduplication with an accumulator of already-seen values;
models pandas `unique()` / `drop_duplicates()` order semantics. -/
def uniqueFirstAux [DecidableEq α] (seen : List α) : List α → List α
  | [] => []
  | a :: rest =>
    if a ∈ seen then uniqueFirstAux seen rest
    else a :: uniqueFirstAux (a :: seen) rest

/-- First-occurrence deduplication of a list. -/
def uniqueFirst [DecidableEq α] (l : List α) : List α :=
  uniqueFirstAux [] l

/-- First-occurrence deduplication keyed by a projection; models pandas
`drop_duplicates(subset=[key])`. -/
def dedupByFirstAux [DecidableEq κ] (key : α → κ) (seen : List κ) : List α → List α
  | [] => []
  | a :: rest =>
    if key a ∈ seen then dedupByFirstAux key seen rest
    else a :: dedupByFirstAux key (key a :: seen) rest

/-- First-occurrence deduplication of a list keyed by a projection. -/
def dedupByFirst [DecidableEq κ] (key : α → κ) (l : List α) : List α :=
  dedupByFirstAux key [] l

/-- Lookup in an association list where a later binding for the same key wins;
models Python `dict(zip(keys, values)).get(k)`. -/
def lookupLast [DecidableEq κ] (pairs : List (κ × Nat)) (k : κ) : Option Nat :=
  (pairs.reverse.find? (fun p => p.1 = k)).map (fun p => p.2)

/-- Association list from rows to `(natural key, _id)` pairs, where `_id` is
the row position plus one; models reading `SELECT _id, key FROM t` into a
Python dict. -/
def idPairs (key : α → κ) (rows : List α) : List (κ × Nat) :=
  rows.enum.map (fun p => (key p.2, p.1 + 1))

/-- Row of a table addressed by its surrogate `_id` (ids start at 1). -/
def getById (rows : List α) (id : Nat) : Option α :=
  if id = 0 then none else rows.get? (id - 1)

/-- Little-endian base-10 digits of `n`, with explicit fuel so the recursion
is structural; `fuel ≥ n` yields all digits. -/
def toDigitsRev : Nat → Nat → List Nat
  | 0, _ => []
  | fuel + 1, n => if n = 0 then [] else n % 10 :: toDigitsRev fuel (n / 10)

/-- Big-endian base-10 digit list of a natural number (`[0]` for zero). -/
def natDigits (n : Nat) : List Nat :=
  if n = 0 then [0] else (toDigitsRev n n).reverse

/-- Decimal string of a natural number; models Python `str` on a non-negative
int (`astype(str)` on an identifier column). -/
def natStr (n : Nat) : String :=
  String.mk ((natDigits n).map Nat.digitChar)

/-- Value of a little-endian digit list. -/
def listVal : List Nat → Nat
  | [] => 0
  | d :: ds => d + 10 * listVal ds

/-! Model of `re.search(r"github\.com/([^/]+)/([^/]+)", url)`. -/

/-- Character list of the literal part of the hosting-URL pattern. -/
def ghPat : List Char := ['g', 'i', 't', 'h', 'u', 'b', '.', 'c', 'o', 'm', '/']

/-- Attempt to match the pattern at the head of `cs`: the literal
`github.com/`, then a nonempty run of non-slash characters (group 1), a
slash, and a second nonempty run of non-slash characters (group 2). -/
def matchAt (cs : List Char) : Option (List Char × List Char) :=
  if charsPrefix ghPat cs then
    let after := cs.drop 11
    let g1 := after.takeWhile (fun c => !(c == '/'))
    let rest1 := after.dropWhile (fun c => !(c == '/'))
    if g1 = [] then none
    else
      match rest1 with
      | [] => none
      | _ :: r2 =>
        let g2 := r2.takeWhile (fun c => !(c == '/'))
        if g2 = [] then none else some (g1, g2)
  else none

/-- Leftmost match of the hosting-URL pattern: try `matchAt` at each
position, as `re.search` does. -/
def githubSearch : List Char → Option (List Char × List Char)
  | [] => none
  | c :: rest =>
    match matchAt (c :: rest) with
    | some r => some r
    | none => githubSearch rest

/-- Remove trailing slashes from a character list; models `str.rstrip("/")`. -/
def rstripSlash (cs : List Char) : List Char :=
  (cs.reverse.dropWhile (fun c => c == '/')).reverse

/-- Remove one trailing `.git` suffix if present; models
`re.sub(r"\.git$", "", title)`. -/
def stripGitSuffix (cs : List Char) : List Char :=
  if cs.reverse.take 4 = ['t', 'i', 'g', '.'] then (cs.reverse.drop 4).reverse
  else cs

/-- Model of `VideoGameDatabase._extract_repo_info`: from an optional URL
(`none` models a pandas NaN) compute `(title, author)`.  A matched hosting
URL yields the second group with trailing slashes and a `.git` suffix
stripped as title and the first group as author; otherwise the URL is split
on slashes and the last two segments are used; with fewer than two segments
the URL itself is the title and the author is `"unknown"`.  The function is
total: the `except` handler in the source can never be reached with string
input, and `None` input is handled by the `pd.isna` branch. -/
def extract_repo_info : Option String → String × String
  | none => ("unknown", "unknown")
  | some url =>
    match githubSearch url.data with
    | some (g1, g2) =>
      (String.mk (stripGitSuffix (rstripSlash g2)), String.mk g1)
    | none =>
      match lastTwo ((splitSlash url.data).map String.mk) with
      | some (o, n) => (n, o)
      | none => (url, "unknown")

/-! Data model: one structure per table, one list per table in `DB`. -/

/-- Row of the `authors` table (payload columns written by the loader). -/
structure AuthorRow where
  name : String
  email : String
  is_active : Bool
deriving DecidableEq

/-- Row of the `repos` table. -/
structure RepoRow where
  title : String
  author : String
  url : String
  is_active : Bool
deriving DecidableEq

/-- Row of the `indexers` table. -/
structure IndexerRow where
  title : String
  url : String
  is_active : Bool
deriving DecidableEq

/-- Row of the `video_games` table (columns written by the loader; columns the
loader never writes, such as `marketplace_id`, stay NULL and are omitted). -/
structure GameRow where
  title : String
  author_id : Option Nat
  repo_id : Option Nat
  indexer_id : Option Nat
  description : String
  genre : String
  is_published : Bool
deriving DecidableEq

/-- Row of the `datasets` table. -/
structure DatasetRow where
  title : String
  author : String
  url : String
  dataset_type : String
  is_active : Bool
deriving DecidableEq

/-- Row of the `game_authors` join table. -/
structure GameAuthorRow where
  game_id : Nat
  author_id : Nat
  role : String
deriving DecidableEq

/-- Row of the `game_repos` join table. -/
structure GameRepoRow where
  game_id : Nat
  repo_id : Nat
  repo_type : String
deriving DecidableEq

/-- Row of the `author_repos` join table. -/
structure AuthorRepoRow where
  author_id : Nat
  repo_id : Nat
  contribution_type : String
deriving DecidableEq

/-- Row of the `dataset_to_video_game` join table. -/
structure DatasetGameRow where
  dataset_id : Nat
  video_game_id : Nat
  link_type : String
deriving DecidableEq

/-- The database: the nine tables the pipeline writes.  A row's surrogate
`_id` is its list position plus one. -/
structure DB where
  authors : List AuthorRow
  repos : List RepoRow
  indexers : List IndexerRow
  video_games : List GameRow
  datasets : List DatasetRow
  game_authors : List GameAuthorRow
  game_repos : List GameRepoRow
  author_repos : List AuthorRepoRow
  dataset_to_video_game : List DatasetGameRow
deriving DecidableEq

/-- The freshly created schema: nine empty tables. -/
def emptyDB : DB := ⟨[], [], [], [], [], [], [], [], []⟩

/-- One CSV record; the loader reads the `Source Code URL` and
`Referencing Dataset` columns, with `none` modelling NaN. -/
structure CsvRow where
  source_code_url : Option String
  referencing_dataset : Option String
deriving DecidableEq

/-! The shared reconciliation step: read existing natural keys (a query that
can fail, modelled by an `Option` argument), filter the candidates, append
the remainder.  This is the exact shape of every `# Remove existing ...`
block in the source: on query failure (`except: pass`) no filtering happens,
and when the existing frame is empty the filter is skipped. -/

/-- Candidate filtering against an optional existing-key query result. -/
def reconcileWith [DecidableEq κ] (key : α → κ) (existing : List α)
    (query : Option (List κ)) (cands : List α) : List α :=
  match query with
  | none => existing ++ cands
  | some ex =>
    if ex = [] then existing ++ cands
    else existing ++ cands.filter (fun c => !(decide (key c ∈ ex)))

/-- Reconciliation with a successful existing-key query. -/
def reconcile [DecidableEq κ] (key : α → κ) (existing cands : List α) : List α :=
  reconcileWith key existing (some (existing.map key)) cands

/-! Entity loads (`_load_authors` .. `_load_datasets`). -/

/-- Author candidate rows built from one CSV frame: the deduplicated author
components of the extracted repo info, each with a synthesized email.  Models
the frame construction in `_load_authors`. -/
def authorCandidates (df : List CsvRow) : List AuthorRow :=
  (uniqueFirst (df.map (fun r => (extract_repo_info r.source_code_url).2))).map
    (fun a => ⟨a, a ++ "@github.com", true⟩)

/-- Load step for `authors`, parameterized by the existing-names query
result. -/
def load_authors_with (db : DB) (df : List CsvRow) (q : Option (List String)) : DB :=
  { db with authors := reconcileWith (fun a => a.name) db.authors q (authorCandidates df) }

/-- Model of `_load_authors` (successful existing-rows query). -/
def load_authors (db : DB) (df : List CsvRow) : DB :=
  load_authors_with db df (some (db.authors.map (fun a => a.name)))

/-- Repository candidate rows: one per CSV row with a present source URL,
first-deduplicated on `url`.  Models the frame construction in
`_load_repositories`. -/
def repoCandidates (df : List CsvRow) : List RepoRow :=
  dedupByFirst (fun rp => rp.url)
    (df.filterMap (fun r =>
      r.source_code_url.map (fun url =>
        let ta := extract_repo_info (some url)
        ⟨ta.1, ta.2, url, true⟩)))

/-- Load step for `repos`, parameterized by the existing-urls query result. -/
def load_repositories_with (db : DB) (df : List CsvRow) (q : Option (List String)) : DB :=
  { db with repos := reconcileWith (fun rp => rp.url) db.repos q (repoCandidates df) }

/-- Model of `_load_repositories`. -/
def load_repositories (db : DB) (df : List CsvRow) : DB :=
  load_repositories_with db df (some (db.repos.map (fun rp => rp.url)))

/-- Last slash-separated segment of a URL; models `url.split("/")[-1]`. -/
def lastSegment (url : String) : String :=
  match (splitSlash url.data).map String.mk with
  | [] => url
  | s :: rest => (s :: rest).getLast (by simp)

/-- Indexer candidate rows: the present, deduplicated dataset URLs.  Models
the frame construction in `_load_indexers`. -/
def indexerCandidates (df : List CsvRow) : List IndexerRow :=
  (uniqueFirst (df.filterMap (fun r => r.referencing_dataset))).map
    (fun url => ⟨lastSegment url, url, true⟩)

/-- Load step for `indexers`, parameterized by the existing-urls query
result. -/
def load_indexers_with (db : DB) (df : List CsvRow) (q : Option (List String)) : DB :=
  { db with indexers := reconcileWith (fun ix => ix.url) db.indexers q (indexerCandidates df) }

/-- Model of `_load_indexers`. -/
def load_indexers (db : DB) (df : List CsvRow) : DB :=
  load_indexers_with db df (some (db.indexers.map (fun ix => ix.url)))

/-- Decimal rendering of an optional identifier, as `astype(str)` renders an
identifier column (`"None"` for a missing id). -/
def idStr : Option Nat → String
  | some n => natStr n
  | none => "None"

/-- Composite dedup key of a game candidate: the `(title, author_id)` natural
key. -/
def vgKey (g : GameRow) : String × Option Nat := (g.title, g.author_id)

/-- Composite filter string of a game row: `title + "_" + str(author_id)`, as
built in `_load_video_games`. -/
def vgComposite (g : GameRow) : String := g.title ++ "_" ++ idStr g.author_id

/-- Video-game candidate rows built from one CSV frame and the current
`authors` / `repos` / `indexers` tables (read into last-wins dicts), then
first-deduplicated on `(title, author_id)`.  Models the frame construction in
`_load_video_games`. -/
def gameCandidates (auths : List AuthorRow) (reps : List RepoRow)
    (ixs : List IndexerRow) (df : List CsvRow) : List GameRow :=
  let authorsDict := idPairs (fun a => a.name) auths
  let reposDict := idPairs (fun rp => rp.url) reps
  let indexersDict := idPairs (fun ix => ix.url) ixs
  dedupByFirst vgKey
    (df.filterMap (fun r =>
      r.source_code_url.map (fun src =>
        let ta := extract_repo_info (some src)
        { title := ta.1
          author_id := lookupLast authorsDict ta.2
          repo_id := lookupLast reposDict src
          indexer_id :=
            match r.referencing_dataset with
            | some d => lookupLast indexersDict d
            | none => none
          description := "Open source video game: " ++ ta.1
          genre := "Open Source"
          is_published := true })))

/-- Load step for `video_games`, parameterized by the existing-composites
query result. -/
def load_video_games_with (db : DB) (df : List CsvRow) (q : Option (List String)) : DB :=
  { db with video_games :=
      reconcileWith vgComposite db.video_games q (gameCandidates db.authors db.repos db.indexers df) }

/-- Model of `_load_video_games`. -/
def load_video_games (db : DB) (df : List CsvRow) : DB :=
  load_video_games_with db df (some (db.video_games.map vgComposite))

/-- Dataset candidate rows: the present, deduplicated dataset URLs.  Models
the frame construction in `_load_datasets`. -/
def datasetCandidates (df : List CsvRow) : List DatasetRow :=
  (uniqueFirst (df.filterMap (fun r => r.referencing_dataset))).map
    (fun url => ⟨lastSegment url, "community", url, "game_collection", true⟩)

/-- Load step for `datasets`, parameterized by the existing-urls query
result. -/
def load_datasets_with (db : DB) (df : List CsvRow) (q : Option (List String)) : DB :=
  { db with datasets := reconcileWith (fun d => d.url) db.datasets q (datasetCandidates df) }

/-- Model of `_load_datasets`. -/
def load_datasets (db : DB) (df : List CsvRow) : DB :=
  load_datasets_with db df (some (db.datasets.map (fun d => d.url)))

/-! Join-table derivation (`_create_many_to_many_relationships`).  Each SQL
query is modelled by a recursion over the table lists that carries the row
position, so that `vg._id = position + 1`. -/

/-- Composite filter string of a `game_authors` row,
`str(game_id) + "_" + str(author_id)`. -/
def gaKeyStr (r : GameAuthorRow) : String := natStr r.game_id ++ "_" ++ natStr r.author_id

/-- Composite filter string of a `game_repos` row. -/
def grKeyStr (r : GameRepoRow) : String := natStr r.game_id ++ "_" ++ natStr r.repo_id

/-- Composite filter string of an `author_repos` row. -/
def arKeyStr (r : AuthorRepoRow) : String := natStr r.author_id ++ "_" ++ natStr r.repo_id

/-- Composite filter string of a `dataset_to_video_game` row. -/
def dgKeyStr (r : DatasetGameRow) : String := natStr r.dataset_id ++ "_" ++ natStr r.video_game_id

/-- Result rows, from game position `i` on, of
`SELECT vg._id, vg.author_id, 'primary_developer' FROM video_games vg WHERE
vg.author_id IS NOT NULL`. -/
def deriveGameAuthorsFrom (i : Nat) : List GameRow → List GameAuthorRow
  | [] => []
  | g :: gs =>
    match g.author_id with
    | some aid => ⟨i + 1, aid, "primary_developer"⟩ :: deriveGameAuthorsFrom (i + 1) gs
    | none => deriveGameAuthorsFrom (i + 1) gs

/-- Derived `game_authors` rows of the whole `video_games` table. -/
def deriveGameAuthors (gs : List GameRow) : List GameAuthorRow :=
  deriveGameAuthorsFrom 0 gs

/-- Result rows, from game position `i` on, of
`SELECT vg._id, vg.repo_id, 'main' FROM video_games vg WHERE vg.repo_id IS
NOT NULL`. -/
def deriveGameReposFrom (i : Nat) : List GameRow → List GameRepoRow
  | [] => []
  | g :: gs =>
    match g.repo_id with
    | some rid => ⟨i + 1, rid, "main"⟩ :: deriveGameReposFrom (i + 1) gs
    | none => deriveGameReposFrom (i + 1) gs

/-- Derived `game_repos` rows of the whole `video_games` table. -/
def deriveGameRepos (gs : List GameRow) : List GameRepoRow :=
  deriveGameReposFrom 0 gs

/-- Inner loop of the `authors JOIN repos ON a.name = r.author` query: rows
for one author (id `aid`, name `nm`) against the repos from position `ri`
on. -/
def arInner (aid : Nat) (nm : String) (ri : Nat) : List RepoRow → List AuthorRepoRow
  | [] => []
  | r :: rs =>
    if r.author = nm then ⟨aid, ri + 1, "owner"⟩ :: arInner aid nm (ri + 1) rs
    else arInner aid nm (ri + 1) rs

/-- Outer loop of the join, over the authors from position `ai` on. -/
def arOuter (ai : Nat) (rs : List RepoRow) : List AuthorRow → List AuthorRepoRow
  | [] => []
  | a :: auths => arInner (ai + 1) a.name 0 rs ++ arOuter (ai + 1) rs auths

/-- Result rows of `SELECT DISTINCT a._id, r._id, 'owner' FROM authors a JOIN
repos r ON a.name = r.author` (the id pairs are already distinct; the
`DISTINCT` is kept as a first-occurrence dedup). -/
def deriveAuthorRepos (auths : List AuthorRow) (rs : List RepoRow) : List AuthorRepoRow :=
  uniqueFirst (arOuter 0 rs auths)

/-- Indexer URL associated to a game, via `vg.indexer_id = i._id`; `none`
when the game has no indexer or the id resolves to no row (the
`WHERE i.url IS NOT NULL` filter of the `LEFT JOIN`). -/
def gameIndexerUrl (ixs : List IndexerRow) (g : GameRow) : Option String :=
  match g.indexer_id with
  | some iid => (getById ixs iid).map (fun ix => ix.url)
  | none => none

/-- The `df_games` frame: `(video_game_id, indexer_url)` for every game with
a resolvable indexer, from game position `gi` on. -/
def dgGames (ixs : List IndexerRow) (gi : Nat) : List GameRow → List (Nat × String)
  | [] => []
  | g :: gs =>
    match gameIndexerUrl ixs g with
    | some u => (gi + 1, u) :: dgGames ixs (gi + 1) gs
    | none => dgGames ixs (gi + 1) gs

/-- The `df_datasets` frame: `(dataset_id, dataset_url)` from dataset
position `di` on. -/
def dgDatasets (di : Nat) : List DatasetRow → List (Nat × String)
  | [] => []
  | d :: ds => (di + 1, d.url) :: dgDatasets (di + 1) ds

/-- Matches of one game frame row against the dataset frame, in dataset
order, selected as `(dataset_id, video_game_id)`. -/
def dgMatchesFor (gp : Nat × String) : List (Nat × String) → List (Nat × Nat)
  | [] => []
  | dp :: dps =>
    if dp.2 = gp.2 then (dp.1, gp.1) :: dgMatchesFor gp dps
    else dgMatchesFor gp dps

/-- Inner merge of the games frame with the datasets frame on URL equality,
keeping the left (games) order, as `pandas.merge(..., how="inner")` does. -/
def dgMerge : List (Nat × String) → List (Nat × String) → List (Nat × Nat)
  | [], _ => []
  | gp :: gps, dsl => dgMatchesFor gp dsl ++ dgMerge gps dsl

/-- Derived `dataset_to_video_game` rows: the URL equi-join of datasets and
games, deduplicated, with the constant `link_type`. -/
def deriveDatasetGames (ds : List DatasetRow) (ixs : List IndexerRow)
    (gs : List GameRow) : List DatasetGameRow :=
  (uniqueFirst (dgMerge (dgGames ixs 0 gs) (dgDatasets 0 ds))).map
    (fun p => ⟨p.1, p.2, "referenced"⟩)

/-- First block of `_create_many_to_many_relationships`: reconcile the derived
`game_authors` rows against the stored ones. -/
def step_game_authors (db : DB) : DB :=
  { db with game_authors := reconcile gaKeyStr db.game_authors (deriveGameAuthors db.video_games) }

/-- Second block: reconcile the derived `game_repos` rows. -/
def step_game_repos (db : DB) : DB :=
  { db with game_repos := reconcile grKeyStr db.game_repos (deriveGameRepos db.video_games) }

/-- Third block: reconcile the derived `author_repos` rows. -/
def step_author_repos (db : DB) : DB :=
  { db with author_repos := reconcile arKeyStr db.author_repos (deriveAuthorRepos db.authors db.repos) }

/-- Fourth block: reconcile the derived `dataset_to_video_game` rows. -/
def step_dataset_games (db : DB) : DB :=
  { db with dataset_to_video_game :=
      reconcile dgKeyStr db.dataset_to_video_game (deriveDatasetGames db.datasets db.indexers db.video_games) }

/-- Model of `_create_many_to_many_relationships`: the four blocks in source
order. -/
def create_many_to_many (db : DB) : DB :=
  step_dataset_games (step_author_repos (step_game_repos (step_game_authors db)))

/-- Run of `_create_many_to_many_relationships` in which the unprotected
`df_games` read of the fourth block raises (e.g. the `indexers` table is
missing): the first three blocks have already committed their inserts when
the exception aborts the method, so the error value carries the state after
the third block. -/
def create_many_to_many_run (db : DB) (datasetReadFails : Bool) : Except DB DB :=
  let db3 := step_author_repos (step_game_repos (step_game_authors db))
  if datasetReadFails then Except.error db3 else Except.ok (step_dataset_games db3)

/-- Model of `load_csv_data`: the five entity loads in order, then the join
derivation. -/
def load_csv_data (db : DB) (df : List CsvRow) : DB :=
  create_many_to_many
    (load_datasets (load_video_games (load_indexers (load_repositories (load_authors db df) df) df) df) df)

/-- Any finite sequence of full loads applied to the fresh schema. -/
def loadAll (dfs : List (List CsvRow)) : DB :=
  dfs.foldl load_csv_data emptyDB

/-- The entity half of `load_csv_data`: the five entity loads in order. -/
def entityPhase (db : DB) (df : List CsvRow) : DB :=
  load_datasets (load_video_games (load_indexers (load_repositories (load_authors db df) df) df) df) df

/-- Composite key pair of a `game_authors` row. -/
def gaPair (r : GameAuthorRow) : Nat × Nat := (r.game_id, r.author_id)

/-- Natural-key uniqueness of the five entity tables (C3). -/
def InvNodups (db : DB) : Prop :=
  (db.authors.map (fun a => a.name)).Nodup ∧
  (db.repos.map (fun rp => rp.url)).Nodup ∧
  (db.indexers.map (fun ix => ix.url)).Nodup ∧
  (db.datasets.map (fun d => d.url)).Nodup ∧
  (db.video_games.map vgKey).Nodup

/-- Invariant of the `game_authors` table: key pairs are unique, every row
points at a stored game whose `author_id` matches and carries the
`primary_developer` role, and every game with a non-null author has a row. -/
def InvGameAuthors (db : DB) : Prop :=
  (db.game_authors.map gaPair).Nodup ∧
  (∀ r ∈ db.game_authors, ∃ g, db.video_games.get? (r.game_id - 1) = some g ∧
     1 ≤ r.game_id ∧ g.author_id = some r.author_id ∧ r.role = "primary_developer") ∧
  (∀ i g aid, db.video_games.get? i = some g → g.author_id = some aid →
     ∃ r ∈ db.game_authors, r.game_id = i + 1 ∧ r.author_id = aid)

/-- Invariant of the `author_repos` table: rows are exactly (up to existence
in each direction) the name-equality join of authors and repos, with the
`owner` contribution type. -/
def InvAuthorRepos (db : DB) : Prop :=
  (∀ r ∈ db.author_repos, ∃ a rp, db.authors.get? (r.author_id - 1) = some a ∧
     db.repos.get? (r.repo_id - 1) = some rp ∧ 1 ≤ r.author_id ∧ 1 ≤ r.repo_id ∧
     rp.author = a.name ∧ r.contribution_type = "owner") ∧
  (∀ ai a ri rp, db.authors.get? ai = some a → db.repos.get? ri = some rp →
     rp.author = a.name → ∃ r ∈ db.author_repos, r.author_id = ai + 1 ∧ r.repo_id = ri + 1)

/-- Invariant of the `dataset_to_video_game` table: rows are exactly (up to
existence in each direction) the URL equi-join of datasets and games. -/
def InvDatasetGames (db : DB) : Prop :=
  (∀ r ∈ db.dataset_to_video_game, ∃ d g, db.datasets.get? (r.dataset_id - 1) = some d ∧
     db.video_games.get? (r.video_game_id - 1) = some g ∧ 1 ≤ r.dataset_id ∧
     1 ≤ r.video_game_id ∧ gameIndexerUrl db.indexers g = some d.url) ∧
  (∀ di d gi g u, db.datasets.get? di = some d → db.video_games.get? gi = some g →
     gameIndexerUrl db.indexers g = some u → u = d.url →
     ∃ r ∈ db.dataset_to_video_game, r.dataset_id = di + 1 ∧ r.video_game_id = gi + 1)

/-- Conjunction of the pipeline invariants established for every reachable
database state. -/
def Inv (db : DB) : Prop :=
  InvNodups db ∧ InvGameAuthors db ∧ InvAuthorRepos db ∧ InvDatasetGames db

/-- Concrete CSV record used to exercise the pipeline. -/
def demoRow : CsvRow := ⟨some "https://github.com/acme/widget.git", some "http://x/d1"⟩

/-- Concrete one-load history used to exercise the pipeline. -/
def demoDfs : List (List CsvRow) := [[demoRow]]

/-- The video-game row produced by loading `demoRow` into a fresh schema. -/
def demoGame : GameRow :=
  ⟨"widget", some 1, some 1, some 1, "Open source video game: widget", "Open Source", true⟩

end Osvg

namespace DbClass

/-!
Shallow embedding of `src/db_class.py` (class `DB`): the raw-SQL author
helpers.  An `authors` table is a list of `(_id, payload)` pairs; SQLite
assigns `max(_id) + 1` to an appended row.
-/

/-- Payload columns of an `authors` row written by `insert_author`. -/
structure AuthorRec where
  name : String
  email : String
  is_active : Bool
deriving DecidableEq

/-- The `authors` table with explicit surrogate ids. -/
abbrev AuthorsTable := List (Nat × AuthorRec)

/-- Insert into a list sorted in descending order, keeping it sorted. -/
def insertDesc (x : Nat) : List Nat → List Nat
  | [] => [x]
  | y :: ys => if y ≤ x then x :: y :: ys else y :: insertDesc x ys

/-- Sort a list of ids in descending order; models `ORDER BY _id DESC`. -/
def sortDesc : List Nat → List Nat
  | [] => []
  | x :: xs => insertDesc x (sortDesc xs)

/-- Model of `DB.get_last_row_id`: run `SELECT _id FROM t ORDER BY _id DESC`,
take the first row, and return 0 when there is none (the `except` branch and
the `if result else 0` both yield 0). -/
def get_last_row_id (t : AuthorsTable) : Nat :=
  match sortDesc (t.map (fun p => p.1)) with
  | [] => 0
  | i :: _ => i

/-- Largest id present in the table (0 when empty); the id SQLite bases the
next rowid on. -/
def maxId (t : AuthorsTable) : Nat :=
  (t.map (fun p => p.1)).foldr Nat.max 0

/-- Model of `DB.insert_author`: append the row (SQLite assigns
`max(_id) + 1`), commit, and return `get_last_row_id("authors")`.  The result
is the new table and the returned id. -/
def insert_author (t : AuthorsTable) (name email : String) : AuthorsTable × Nat :=
  let t2 := t ++ [(maxId t + 1, ⟨name, email, true⟩)]
  (t2, get_last_row_id t2)

/-- Concrete one-row table used to exercise the helpers. -/
def demoAuthors : AuthorsTable := [(1, ⟨"a", "a@x", true⟩)]

end DbClass

namespace Osvg

/-! Reconciliation lemmas. -/

theorem reconcile_eq_append [DecidableEq κ] (key : α → κ) (E C : List α) :
    reconcile key E C = E ++ C.filter (fun c => !(decide (key c ∈ E.map key))) := by
  have unfolded : reconcile key E C =
      if E.map key = [] then E ++ C
      else E ++ C.filter (fun c => !(decide (key c ∈ E.map key))) := rfl
  rw [unfolded]
  by_cases h : E.map key = []
  · rw [if_pos h, h]
    have : C.filter (fun c => !(decide (key c ∈ ([] : List κ)))) = C := by
      induction C with
      | nil => rfl
      | cons c cs ih => simp [List.filter, ih]
    rw [this]
  · rw [if_neg h]

theorem reconcile_sub [DecidableEq κ] (key : α → κ) (E C : List α) :
    ∀ c ∈ C, key c ∈ (reconcile key E C).map key := by
  intro c hc
  rw [reconcile_eq_append, List.map_append]
  by_cases h : key c ∈ E.map key
  · exact List.mem_append_left _ h
  · refine List.mem_append_right _ (List.mem_map_of_mem key ?_)
    rw [List.mem_filter]
    exact ⟨hc, by simp [h]⟩

theorem reconcile_eq_self [DecidableEq κ] (key : α → κ) (E C : List α)
    (h : ∀ c ∈ C, key c ∈ E.map key) : reconcile key E C = E := by
  rw [reconcile_eq_append]
  have : C.filter (fun c => !(decide (key c ∈ E.map key))) = [] := by
    rw [List.filter_eq_nil_iff]
    intro c hc
    simp [h c hc]
  rw [this, List.append_nil]

theorem reconcile_idem [DecidableEq κ] (key : α → κ) (E C : List α) :
    reconcile key (reconcile key E C) C = reconcile key E C :=
  reconcile_eq_self key _ C (reconcile_sub key E C)

/-! Definitional projection lemmas for the pipeline stages. -/

theorem load_csv_data_phases (db : DB) (df : List CsvRow) :
    load_csv_data db df = create_many_to_many (entityPhase db df) := rfl

theorem ep_authors (db : DB) (df : List CsvRow) :
    (entityPhase db df).authors = reconcile (fun a => a.name) db.authors (authorCandidates df) := rfl

theorem ep_repos (db : DB) (df : List CsvRow) :
    (entityPhase db df).repos = reconcile (fun rp => rp.url) db.repos (repoCandidates df) := rfl

theorem ep_indexers (db : DB) (df : List CsvRow) :
    (entityPhase db df).indexers = reconcile (fun ix => ix.url) db.indexers (indexerCandidates df) := rfl

theorem ep_datasets (db : DB) (df : List CsvRow) :
    (entityPhase db df).datasets = reconcile (fun d => d.url) db.datasets (datasetCandidates df) := rfl

theorem ep_video (db : DB) (df : List CsvRow) :
    (entityPhase db df).video_games =
      reconcile vgComposite db.video_games
        (gameCandidates (entityPhase db df).authors (entityPhase db df).repos
          (entityPhase db df).indexers df) := rfl

theorem ep_game_authors (db : DB) (df : List CsvRow) :
    (entityPhase db df).game_authors = db.game_authors := rfl

theorem ep_game_repos (db : DB) (df : List CsvRow) :
    (entityPhase db df).game_repos = db.game_repos := rfl

theorem ep_author_repos (db : DB) (df : List CsvRow) :
    (entityPhase db df).author_repos = db.author_repos := rfl

theorem ep_dataset_games (db : DB) (df : List CsvRow) :
    (entityPhase db df).dataset_to_video_game = db.dataset_to_video_game := rfl

theorem cm_authors (db : DB) : (create_many_to_many db).authors = db.authors := rfl

theorem cm_repos (db : DB) : (create_many_to_many db).repos = db.repos := rfl

theorem cm_indexers (db : DB) : (create_many_to_many db).indexers = db.indexers := rfl

theorem cm_video (db : DB) : (create_many_to_many db).video_games = db.video_games := rfl

theorem cm_datasets (db : DB) : (create_many_to_many db).datasets = db.datasets := rfl

theorem cm_game_authors (db : DB) :
    (create_many_to_many db).game_authors =
      reconcile gaKeyStr db.game_authors (deriveGameAuthors db.video_games) := rfl

theorem cm_game_repos (db : DB) :
    (create_many_to_many db).game_repos =
      reconcile grKeyStr db.game_repos (deriveGameRepos db.video_games) := rfl

theorem cm_author_repos (db : DB) :
    (create_many_to_many db).author_repos =
      reconcile arKeyStr db.author_repos (deriveAuthorRepos db.authors db.repos) := rfl

theorem cm_dataset_games (db : DB) :
    (create_many_to_many db).dataset_to_video_game =
      reconcile dgKeyStr db.dataset_to_video_game
        (deriveDatasetGames db.datasets db.indexers db.video_games) := rfl

/-! Stage stability: a load stage whose candidates all have already-present
keys leaves the database unchanged. -/

theorem load_authors_stable (db : DB) (df : List CsvRow)
    (h : ∀ c ∈ authorCandidates df, c.name ∈ db.authors.map (fun a => a.name)) :
    load_authors db df = db := by
  show { db with authors := reconcile (fun a => a.name) db.authors (authorCandidates df) } = db
  rw [reconcile_eq_self _ _ _ h]

theorem load_repositories_stable (db : DB) (df : List CsvRow)
    (h : ∀ c ∈ repoCandidates df, c.url ∈ db.repos.map (fun rp => rp.url)) :
    load_repositories db df = db := by
  show { db with repos := reconcile (fun rp => rp.url) db.repos (repoCandidates df) } = db
  rw [reconcile_eq_self _ _ _ h]

theorem load_indexers_stable (db : DB) (df : List CsvRow)
    (h : ∀ c ∈ indexerCandidates df, c.url ∈ db.indexers.map (fun ix => ix.url)) :
    load_indexers db df = db := by
  show { db with indexers := reconcile (fun ix => ix.url) db.indexers (indexerCandidates df) } = db
  rw [reconcile_eq_self _ _ _ h]

theorem load_video_games_stable (db : DB) (df : List CsvRow)
    (h : ∀ c ∈ gameCandidates db.authors db.repos db.indexers df,
      vgComposite c ∈ db.video_games.map vgComposite) :
    load_video_games db df = db := by
  show { db with video_games := (reconcile vgComposite db.video_games (gameCandidates db.authors db.repos db.indexers df)) } = db
  rw [reconcile_eq_self _ _ _ h]

theorem load_datasets_stable (db : DB) (df : List CsvRow)
    (h : ∀ c ∈ datasetCandidates df, c.url ∈ db.datasets.map (fun d => d.url)) :
    load_datasets db df = db := by
  show { db with datasets := reconcile (fun d => d.url) db.datasets (datasetCandidates df) } = db
  rw [reconcile_eq_self _ _ _ h]

theorem step_game_authors_stable (db : DB)
    (h : ∀ c ∈ deriveGameAuthors db.video_games, gaKeyStr c ∈ db.game_authors.map gaKeyStr) :
    step_game_authors db = db := by
  show { db with game_authors := reconcile gaKeyStr db.game_authors (deriveGameAuthors db.video_games) } = db
  rw [reconcile_eq_self _ _ _ h]

theorem step_game_repos_stable (db : DB)
    (h : ∀ c ∈ deriveGameRepos db.video_games, grKeyStr c ∈ db.game_repos.map grKeyStr) :
    step_game_repos db = db := by
  show { db with game_repos := reconcile grKeyStr db.game_repos (deriveGameRepos db.video_games) } = db
  rw [reconcile_eq_self _ _ _ h]

theorem step_author_repos_stable (db : DB)
    (h : ∀ c ∈ deriveAuthorRepos db.authors db.repos,
      arKeyStr c ∈ db.author_repos.map arKeyStr) :
    step_author_repos db = db := by
  show { db with author_repos := reconcile arKeyStr db.author_repos (deriveAuthorRepos db.authors db.repos) } = db
  rw [reconcile_eq_self _ _ _ h]

theorem step_dataset_games_stable (db : DB)
    (h : ∀ c ∈ deriveDatasetGames db.datasets db.indexers db.video_games,
      dgKeyStr c ∈ db.dataset_to_video_game.map dgKeyStr) :
    step_dataset_games db = db := by
  show { db with dataset_to_video_game := (reconcile dgKeyStr db.dataset_to_video_game (deriveDatasetGames db.datasets db.indexers db.video_games)) } = db
  rw [reconcile_eq_self _ _ _ h]

/-- C1: the full CSV load is idempotent — a second run of `load_csv_data`
with the same frame on the resulting database is the identity, so every one
of the nine tables (entity and join alike) has exactly the rows, and hence
exactly the row count, it had after the first run; the second run inserts
nothing. -/
theorem load_csv_data_idempotent (db : DB) (df : List CsvRow) :
    load_csv_data (load_csv_data db df) df = load_csv_data db df := by
  have h1 : load_authors (load_csv_data db df) df = load_csv_data db df := by
    apply load_authors_stable
    intro c hc
    rw [load_csv_data_phases, cm_authors, ep_authors]
    exact reconcile_sub _ _ _ c hc
  have h2 : load_repositories (load_csv_data db df) df = load_csv_data db df := by
    apply load_repositories_stable
    intro c hc
    rw [load_csv_data_phases, cm_repos, ep_repos]
    exact reconcile_sub _ _ _ c hc
  have h3 : load_indexers (load_csv_data db df) df = load_csv_data db df := by
    apply load_indexers_stable
    intro c hc
    rw [load_csv_data_phases, cm_indexers, ep_indexers]
    exact reconcile_sub _ _ _ c hc
  have h4 : load_video_games (load_csv_data db df) df = load_csv_data db df := by
    apply load_video_games_stable
    intro c hc
    rw [load_csv_data_phases, cm_authors, cm_repos, cm_indexers] at hc
    rw [load_csv_data_phases, cm_video, ep_video]
    exact reconcile_sub _ _ _ c hc
  have h5 : load_datasets (load_csv_data db df) df = load_csv_data db df := by
    apply load_datasets_stable
    intro c hc
    rw [load_csv_data_phases, cm_datasets, ep_datasets]
    exact reconcile_sub _ _ _ c hc
  have h6 : step_game_authors (load_csv_data db df) = load_csv_data db df := by
    apply step_game_authors_stable
    intro c hc
    rw [load_csv_data_phases, cm_video] at hc
    rw [load_csv_data_phases, cm_game_authors]
    exact reconcile_sub _ _ _ c hc
  have h7 : step_game_repos (load_csv_data db df) = load_csv_data db df := by
    apply step_game_repos_stable
    intro c hc
    rw [load_csv_data_phases, cm_video] at hc
    rw [load_csv_data_phases, cm_game_repos]
    exact reconcile_sub _ _ _ c hc
  have h8 : step_author_repos (load_csv_data db df) = load_csv_data db df := by
    apply step_author_repos_stable
    intro c hc
    rw [load_csv_data_phases, cm_authors, cm_repos] at hc
    rw [load_csv_data_phases, cm_author_repos]
    exact reconcile_sub _ _ _ c hc
  have h9 : step_dataset_games (load_csv_data db df) = load_csv_data db df := by
    apply step_dataset_games_stable
    intro c hc
    rw [load_csv_data_phases, cm_datasets, cm_indexers, cm_video] at hc
    rw [load_csv_data_phases, cm_dataset_games]
    exact reconcile_sub _ _ _ c hc
  show create_many_to_many
      (load_datasets (load_video_games (load_indexers (load_repositories
        (load_authors (load_csv_data db df) df) df) df) df) df) = load_csv_data db df
  rw [h1, h2, h3, h4, h5]
  show step_dataset_games (step_author_repos (step_game_repos
      (step_game_authors (load_csv_data db df)))) = load_csv_data db df
  rw [h6, h7, h8, h9]

/-- C7: when the existing-rows query of an entity load step fails (the
`except: pass` path, modelled by a `none` query result), the step treats the
existing set as empty — it behaves exactly like a successful query returning
no rows — and appends every deduplicated candidate without failing. -/
theorem entity_load_query_failure_inserts_all (db : DB) (df : List CsvRow) :
    ((load_authors_with db df none).authors = db.authors ++ authorCandidates df ∧
      load_authors_with db df none = load_authors_with db df (some [])) ∧
    ((load_repositories_with db df none).repos = db.repos ++ repoCandidates df ∧
      load_repositories_with db df none = load_repositories_with db df (some [])) ∧
    ((load_indexers_with db df none).indexers = db.indexers ++ indexerCandidates df ∧
      load_indexers_with db df none = load_indexers_with db df (some [])) ∧
    ((load_video_games_with db df none).video_games =
        db.video_games ++ gameCandidates db.authors db.repos db.indexers df ∧
      load_video_games_with db df none = load_video_games_with db df (some [])) ∧
    ((load_datasets_with db df none).datasets = db.datasets ++ datasetCandidates df ∧
      load_datasets_with db df none = load_datasets_with db df (some [])) :=
  ⟨⟨rfl, rfl⟩, ⟨rfl, rfl⟩, ⟨rfl, rfl⟩, ⟨rfl, rfl⟩, ⟨rfl, rfl⟩⟩

/-- C8: a full load only appends to every entity table — each entity row
stored before the load is still present, at its position, with every field
unchanged, after the load. -/
theorem load_preserves_existing_entity_rows (db : DB) (df : List CsvRow) :
    (∃ s, (load_csv_data db df).authors = db.authors ++ s) ∧
    (∃ s, (load_csv_data db df).repos = db.repos ++ s) ∧
    (∃ s, (load_csv_data db df).indexers = db.indexers ++ s) ∧
    (∃ s, (load_csv_data db df).video_games = db.video_games ++ s) ∧
    (∃ s, (load_csv_data db df).datasets = db.datasets ++ s) := by
  have ha : (load_csv_data db df).authors = db.authors ++
      (authorCandidates df).filter (fun c => !(decide (c.name ∈ db.authors.map (fun a => a.name)))) := by
    rw [load_csv_data_phases, cm_authors, ep_authors, reconcile_eq_append]
  have hr : (load_csv_data db df).repos = db.repos ++
      (repoCandidates df).filter (fun c => !(decide (c.url ∈ db.repos.map (fun rp => rp.url)))) := by
    rw [load_csv_data_phases, cm_repos, ep_repos, reconcile_eq_append]
  have hi : (load_csv_data db df).indexers = db.indexers ++
      (indexerCandidates df).filter (fun c => !(decide (c.url ∈ db.indexers.map (fun ix => ix.url)))) := by
    rw [load_csv_data_phases, cm_indexers, ep_indexers, reconcile_eq_append]
  have hv : (load_csv_data db df).video_games = db.video_games ++
      (gameCandidates (entityPhase db df).authors (entityPhase db df).repos (entityPhase db df).indexers df).filter
        (fun c => !(decide (vgComposite c ∈ db.video_games.map vgComposite))) := by
    rw [load_csv_data_phases, cm_video, ep_video, reconcile_eq_append]
  have hd : (load_csv_data db df).datasets = db.datasets ++
      (datasetCandidates df).filter (fun c => !(decide (c.url ∈ db.datasets.map (fun d => d.url)))) := by
    rw [load_csv_data_phases, cm_datasets, ep_datasets, reconcile_eq_append]
  exact ⟨⟨_, ha⟩, ⟨_, hr⟩, ⟨_, hi⟩, ⟨_, hv⟩, ⟨_, hd⟩⟩

/-- C9: if the `dataset_to_video_game` derivation raises (its unprotected
frame read fails, e.g. because the `indexers` table is missing), the
`game_authors` and `game_repos` blocks of the same run have already
committed: the state carried by the exception holds exactly the
`game_authors` and `game_repos` rows a fully successful run produces. -/
theorem dataset_step_failure_isolated (db : DB) :
    ∃ d, create_many_to_many_run db true = Except.error d ∧
      d.game_authors = reconcile gaKeyStr db.game_authors (deriveGameAuthors db.video_games) ∧
      d.game_repos = reconcile grKeyStr db.game_repos (deriveGameRepos db.video_games) ∧
      d.game_authors = (create_many_to_many db).game_authors ∧
      d.game_repos = (create_many_to_many db).game_repos ∧
      create_many_to_many_run db false = Except.ok (create_many_to_many db) :=
  ⟨step_author_repos (step_game_repos (step_game_authors db)), rfl, rfl, rfl, rfl, rfl, rfl⟩

/-- C2 counterexample: for the URL `not-a-url` the extractor does not return
the pair `("unknown", "unknown")` — the fallback branch returns the whole URL
string as the title/name when the split yields fewer than two segments. -/
theorem extract_not_a_url_counterexample :
    extract_repo_info (some "not-a-url") ≠ ("unknown", "unknown") := by decide

/-- C2 amended: for the URL `not-a-url` the extractor degrades gracefully and
returns the URL string itself as name together with owner `"unknown"`; a
missing (NaN) URL yields `("unknown", "unknown")`.  The model is a total
function, so extraction never raises on any input. -/
theorem extract_not_a_url_graceful :
    extract_repo_info (some "not-a-url") = ("not-a-url", "unknown") ∧
    extract_repo_info none = ("unknown", "unknown") :=
  ⟨by decide, rfl⟩

/-! Lemmas about `takeWhile` / `dropWhile` on split lists, used to evaluate
the pattern match symbolically. -/

theorem takeWhile_append_all (p : Char → Bool) (xs : List Char) (y : Char) (ys : List Char)
    (hx : ∀ c ∈ xs, p c = true) (hy : p y = false) :
    (xs ++ y :: ys).takeWhile p = xs := by
  induction xs with
  | nil => simp [List.takeWhile, hy]
  | cons a l ih =>
    have ha : p a = true := hx a (List.mem_cons_self a l)
    simp only [List.cons_append, List.takeWhile_cons, ha, if_true]
    rw [ih (fun c hc => hx c (List.mem_cons_of_mem a hc))]

theorem dropWhile_append_all (p : Char → Bool) (xs : List Char) (y : Char) (ys : List Char)
    (hx : ∀ c ∈ xs, p c = true) (hy : p y = false) :
    (xs ++ y :: ys).dropWhile p = y :: ys := by
  induction xs with
  | nil => simp [List.dropWhile, hy]
  | cons a l ih =>
    have ha : p a = true := hx a (List.mem_cons_self a l)
    simp only [List.cons_append, List.dropWhile_cons, ha, if_true]
    exact ih (fun c hc => hx c (List.mem_cons_of_mem a hc))

theorem takeWhile_all (p : Char → Bool) (xs : List Char) (hx : ∀ c ∈ xs, p c = true) :
    xs.takeWhile p = xs := by
  induction xs with
  | nil => rfl
  | cons a l ih =>
    have ha : p a = true := hx a (List.mem_cons_self a l)
    simp only [List.takeWhile_cons, ha, if_true]
    rw [ih (fun c hc => hx c (List.mem_cons_of_mem a hc))]

theorem dropWhile_all_false (p : Char → Bool) (xs : List Char) (hx : ∀ c ∈ xs, p c = false) :
    xs.dropWhile p = xs := by
  cases xs with
  | nil => rfl
  | cons a l => simp [List.dropWhile_cons, hx a (List.mem_cons_self a l)]

theorem rstripSlash_no_slash (cs : List Char) (h : ∀ c ∈ cs, c ≠ '/') :
    rstripSlash cs = cs := by
  unfold rstripSlash
  rw [dropWhile_all_false _ _ (fun c hc => by
    have : c ≠ '/' := h c (List.mem_reverse.mp hc)
    simp [this]), List.reverse_reverse]

theorem stripGitSuffix_append (nm : List Char) :
    stripGitSuffix (nm ++ ['.', 'g', 'i', 't']) = nm := by
  unfold stripGitSuffix
  rw [List.reverse_append]
  rw [show ((['.', 'g', 'i', 't'] : List Char).reverse ++ nm.reverse)
      = 't' :: 'i' :: 'g' :: '.' :: nm.reverse from rfl]
  rw [show List.take 4 ('t' :: 'i' :: 'g' :: '.' :: nm.reverse) = ['t', 'i', 'g', '.'] from rfl]
  rw [show List.drop 4 ('t' :: 'i' :: 'g' :: '.' :: nm.reverse) = nm.reverse from rfl]
  simp

theorem matchAt_gh (owner rest2 : List Char) (how : owner ≠ [])
    (hso : ∀ c ∈ owner, c ≠ '/')
    (hg2 : rest2.takeWhile (fun c => !(c == '/')) ≠ []) :
    matchAt ('g' :: 'i' :: 't' :: 'h' :: 'u' :: 'b' :: '.' :: 'c' :: 'o' :: 'm' :: '/'
      :: (owner ++ '/' :: rest2)) = some (owner, rest2.takeWhile (fun c => !(c == '/'))) := by
  have h1 : (owner ++ '/' :: rest2).takeWhile (fun c => !(c == '/')) = owner :=
    takeWhile_append_all _ _ _ _ (fun c hc => by simp [hso c hc]) (by simp)
  have hd : (owner ++ '/' :: rest2).dropWhile (fun c => !(c == '/')) = '/' :: rest2 :=
    dropWhile_append_all _ _ _ _ (fun c hc => by simp [hso c hc]) (by simp)
  show (if (owner ++ '/' :: rest2).takeWhile (fun c => !(c == '/')) = [] then none
    else
      match (owner ++ '/' :: rest2).dropWhile (fun c => !(c == '/')) with
      | [] => none
      | _ :: r2 =>
        if r2.takeWhile (fun c => !(c == '/')) = [] then none
        else some ((owner ++ '/' :: rest2).takeWhile (fun c => !(c == '/')),
          r2.takeWhile (fun c => !(c == '/')))) =
      some (owner, rest2.takeWhile (fun c => !(c == '/')))
  rw [h1, hd, if_neg how]
  show (if rest2.takeWhile (fun c => !(c == '/')) = [] then none
    else some (owner, rest2.takeWhile (fun c => !(c == '/')))) =
      some (owner, rest2.takeWhile (fun c => !(c == '/')))
  rw [if_neg hg2]

theorem githubSearch_cons (c : Char) (cs : List Char) :
    githubSearch (c :: cs) =
      match matchAt (c :: cs) with
      | some r => some r
      | none => githubSearch cs := rfl

theorem githubSearch_https (owner rest2 : List Char) (how : owner ≠ [])
    (hso : ∀ c ∈ owner, c ≠ '/')
    (hg2 : rest2.takeWhile (fun c => !(c == '/')) ≠ []) :
    githubSearch ('h' :: 't' :: 't' :: 'p' :: 's' :: ':' :: '/' :: '/' :: 'g' :: 'i' :: 't'
      :: 'h' :: 'u' :: 'b' :: '.' :: 'c' :: 'o' :: 'm' :: '/' :: (owner ++ '/' :: rest2)) =
      some (owner, rest2.takeWhile (fun c => !(c == '/'))) := by
  show githubSearch ('g' :: 'i' :: 't' :: 'h' :: 'u' :: 'b' :: '.' :: 'c' :: 'o' :: 'm'
    :: '/' :: (owner ++ '/' :: rest2)) = some (owner, rest2.takeWhile (fun c => !(c == '/')))
  rw [githubSearch_cons, matchAt_gh owner rest2 how hso hg2]

/-- C4: for the URL `https://github.com/acme/widget.git` extraction yields
owner `"acme"` and name `"widget"`; in general, for every URL of the
recognized hosting shape `https://github.com/owner/name.git` the trailing
`.git` suffix is stripped from the extracted name, and for the shape
`https://github.com/owner/name/` the trailing slash never reaches the
extracted name (the pattern's second group stops at a slash) which is then
only subjected to `.git` stripping. -/
theorem extract_git_suffix_stripped :
    extract_repo_info (some "https://github.com/acme/widget.git") = ("widget", "acme") ∧
    (∀ owner nm : String, owner.data ≠ [] → nm.data ≠ [] →
      (∀ c ∈ owner.data, c ≠ '/') → (∀ c ∈ nm.data, c ≠ '/') →
      extract_repo_info (some ("https://github.com/" ++ owner ++ "/" ++ nm ++ ".git")) =
        (nm, owner)) ∧
    (∀ owner nm : String, owner.data ≠ [] → nm.data ≠ [] →
      (∀ c ∈ owner.data, c ≠ '/') → (∀ c ∈ nm.data, c ≠ '/') →
      extract_repo_info (some ("https://github.com/" ++ owner ++ "/" ++ nm ++ "/")) =
        (String.mk (stripGitSuffix nm.data), owner)) := by
  refine ⟨by decide, ?_, ?_⟩
  · intro owner nm how hn hso hsn
    have hdata : ("https://github.com/" ++ owner ++ "/" ++ nm ++ ".git").data
        = 'h' :: 't' :: 't' :: 'p' :: 's' :: ':' :: '/' :: '/' :: 'g' :: 'i' :: 't' :: 'h'
          :: 'u' :: 'b' :: '.' :: 'c' :: 'o' :: 'm' :: '/'
          :: (owner.data ++ '/' :: (nm.data ++ ['.', 'g', 'i', 't'])) := by
      simp [String.data_append, List.append_assoc]
    have hgit : ∀ c ∈ nm.data ++ ['.', 'g', 'i', 't'], c ≠ '/' := by
      intro c hc
      rcases List.mem_append.mp hc with h | h
      · exact hsn c h
      · simp only [List.mem_cons, List.not_mem_nil, or_false] at h
        rcases h with rfl | rfl | rfl | rfl <;> decide
    have htw : (nm.data ++ ['.', 'g', 'i', 't']).takeWhile (fun c => !(c == '/'))
        = nm.data ++ ['.', 'g', 'i', 't'] :=
      takeWhile_all _ _ (fun c hc => by simp [hgit c hc])
    have htwne : (nm.data ++ ['.', 'g', 'i', 't']).takeWhile (fun c => !(c == '/')) ≠ [] := by
      rw [htw]
      simp
    have hsearch : githubSearch (("https://github.com/" ++ owner ++ "/" ++ nm ++ ".git").data)
        = some (owner.data, nm.data ++ ['.', 'g', 'i', 't']) := by
      rw [hdata, githubSearch_https owner.data (nm.data ++ ['.', 'g', 'i', 't']) how hso htwne, htw]
    have hres : extract_repo_info (some ("https://github.com/" ++ owner ++ "/" ++ nm ++ ".git"))
        = (String.mk (stripGitSuffix (rstripSlash (nm.data ++ ['.', 'g', 'i', 't']))),
            String.mk owner.data) := by
      unfold extract_repo_info
      simp only [hsearch]
    rw [hres, rstripSlash_no_slash _ hgit, stripGitSuffix_append]
  · intro owner nm how hn hso hsn
    have hdata : ("https://github.com/" ++ owner ++ "/" ++ nm ++ "/").data
        = 'h' :: 't' :: 't' :: 'p' :: 's' :: ':' :: '/' :: '/' :: 'g' :: 'i' :: 't' :: 'h'
          :: 'u' :: 'b' :: '.' :: 'c' :: 'o' :: 'm' :: '/'
          :: (owner.data ++ '/' :: (nm.data ++ ['/'])) := by
      simp [String.data_append, List.append_assoc]
    have htw : (nm.data ++ ['/']).takeWhile (fun c => !(c == '/')) = nm.data :=
      takeWhile_append_all _ _ '/' [] (fun c hc => by simp [hsn c hc]) (by simp)
    have htwne : (nm.data ++ ['/']).takeWhile (fun c => !(c == '/')) ≠ [] := by
      rw [htw]
      exact hn
    have hsearch : githubSearch (("https://github.com/" ++ owner ++ "/" ++ nm ++ "/").data)
        = some (owner.data, nm.data) := by
      rw [hdata, githubSearch_https owner.data (nm.data ++ ['/']) how hso htwne, htw]
    have hres : extract_repo_info (some ("https://github.com/" ++ owner ++ "/" ++ nm ++ "/"))
        = (String.mk (stripGitSuffix (rstripSlash nm.data)), String.mk owner.data) := by
      unfold extract_repo_info
      simp only [hsearch]
    rw [hres, rstripSlash_no_slash _ hsn]

/-- C4 witness: the hypotheses of the general conjuncts hold at
`owner = "acme"`, `name = "widget"`, and the theorem applied there yields the
expected concrete extraction. -/
theorem extract_git_suffix_stripped_witness :
    (("acme" : String).data ≠ [] ∧ ("widget" : String).data ≠ [] ∧
      (∀ c ∈ ("acme" : String).data, c ≠ '/') ∧ (∀ c ∈ ("widget" : String).data, c ≠ '/')) ∧
    extract_repo_info (some ("https://github.com/" ++ "acme" ++ "/" ++ "widget" ++ ".git")) =
      ("widget", "acme") :=
  ⟨⟨by decide, by decide, by decide, by decide⟩,
    extract_git_suffix_stripped.2.1 "acme" "widget" (by decide) (by decide) (by decide) (by decide)⟩

end Osvg

namespace DbClass

theorem insertDesc_headD (x : Nat) (l : List Nat) :
    (insertDesc x l).headD 0 = Nat.max x (l.headD 0) := by
  cases l with
  | nil => simp [insertDesc]
  | cons y ys =>
    by_cases h : y ≤ x
    · simp [insertDesc, h, Nat.max_eq_left h]
    · have hx : x ≤ y := Nat.le_of_lt (Nat.lt_of_not_le h)
      simp [insertDesc, h, Nat.max_eq_right hx]

theorem sortDesc_headD (l : List Nat) : (sortDesc l).headD 0 = l.foldr Nat.max 0 := by
  induction l with
  | nil => rfl
  | cons x xs ih =>
    show (insertDesc x (sortDesc xs)).headD 0 = Nat.max x (xs.foldr Nat.max 0)
    rw [insertDesc_headD, ih]

theorem insertDesc_mem (a x : Nat) (l : List Nat) :
    a ∈ insertDesc x l ↔ a = x ∨ a ∈ l := by
  induction l with
  | nil => simp [insertDesc]
  | cons y ys ih =>
    by_cases h : y ≤ x
    · simp [insertDesc, h]
    · simp [insertDesc, h, ih]
      tauto

theorem sortDesc_mem (a : Nat) (l : List Nat) : a ∈ sortDesc l ↔ a ∈ l := by
  induction l with
  | nil => simp [sortDesc]
  | cons x xs ih =>
    show a ∈ insertDesc x (sortDesc xs) ↔ _
    rw [insertDesc_mem, ih]
    simp

theorem insertDesc_ne_nil (x : Nat) (l : List Nat) : insertDesc x l ≠ [] := by
  cases l with
  | nil => simp [insertDesc]
  | cons y ys =>
    by_cases h : y ≤ x <;> simp [insertDesc, h]

theorem get_last_row_id_headD (t : AuthorsTable) :
    get_last_row_id t = (sortDesc (t.map (fun p => p.1))).headD 0 := by
  unfold get_last_row_id
  cases h : sortDesc (t.map (fun p => p.1)) <;> simp [h]

theorem foldr_max_le (l : List Nat) : ∀ x ∈ l, x ≤ l.foldr Nat.max 0 := by
  induction l with
  | nil => intro x hx; cases hx
  | cons y ys ih =>
    intro x hx
    rcases List.mem_cons.mp hx with rfl | hx
    · exact Nat.le_max_left _ _
    · exact Nat.le_trans (ih x hx) (Nat.le_max_right _ _)

theorem foldr_max_append_singleton (l : List Nat) (x : Nat) :
    (l ++ [x]).foldr Nat.max 0 = Nat.max (l.foldr Nat.max 0) x := by
  induction l with
  | nil => simp [Nat.max_comm]
  | cons y ys ih =>
    show Nat.max y ((ys ++ [x]).foldr Nat.max 0) = Nat.max (Nat.max y (ys.foldr Nat.max 0)) x
    rw [ih]
    exact (Nat.max_assoc y (ys.foldr Nat.max 0) x).symm

/-- C10: `get_last_row_id` returns 0 on an empty table and the largest stored
`_id` otherwise (it both bounds every id and is itself one of the ids); as a
consequence, `insert_author` — which appends a row with the SQLite-assigned
id `max + 1` and rereads the last row id — returns exactly the surrogate id
of the row it just inserted. -/
theorem get_last_row_id_spec :
    get_last_row_id ([] : AuthorsTable) = 0 ∧
    (∀ t : AuthorsTable, get_last_row_id t = maxId t ∧
      (∀ p ∈ t, p.1 ≤ get_last_row_id t) ∧
      (t ≠ [] → get_last_row_id t ∈ t.map (fun p => p.1))) ∧
    (∀ (t : AuthorsTable) (name email : String),
      (insert_author t name email).2 = maxId t + 1 ∧
      (insert_author t name email).1 = t ++ [(maxId t + 1, ⟨name, email, true⟩)]) := by
  have hmax : ∀ t : AuthorsTable, get_last_row_id t = maxId t := by
    intro t
    rw [get_last_row_id_headD, sortDesc_headD]
    rfl
  refine ⟨rfl, fun t => ⟨hmax t, ?_, ?_⟩, fun t name email => ⟨?_, rfl⟩⟩
  · intro p hp
    rw [hmax]
    exact foldr_max_le _ _ (List.mem_map_of_mem (fun q => q.1) hp)
  · intro hne
    rw [get_last_row_id_headD]
    have hmapne : t.map (fun p => p.1) ≠ [] := by
      cases t with
      | nil => exact absurd rfl hne
      | cons a l => simp
    cases hs : sortDesc (t.map (fun p => p.1)) with
    | nil =>
      exfalso
      cases t with
      | nil => exact hne rfl
      | cons a l => exact insertDesc_ne_nil _ _ hs
    | cons i is =>
      have : i ∈ sortDesc (t.map (fun p => p.1)) := by
        rw [hs]
        exact List.mem_cons_self i is
      rw [sortDesc_mem] at this
      simpa using this
  · show get_last_row_id (t ++ [(maxId t + 1, (⟨name, email, true⟩ : AuthorRec))]) = maxId t + 1
    rw [hmax]
    show ((t ++ [(maxId t + 1, (⟨name, email, true⟩ : AuthorRec))]).map (fun p => p.1)).foldr Nat.max 0 = maxId t + 1
    rw [List.map_append]
    show ((t.map (fun p => p.1)) ++ [maxId t + 1]).foldr Nat.max 0 = maxId t + 1
    rw [foldr_max_append_singleton]
    exact Nat.max_eq_right (Nat.le_succ _)

/-- C10 witness: on the concrete one-row table the returned id is a member
and an upper bound, and inserting into the empty table returns id 1. -/
theorem get_last_row_id_spec_witness :
    (demoAuthors ≠ [] ∧
      get_last_row_id demoAuthors ∈ demoAuthors.map (fun p => p.1)) ∧
    (insert_author [] "a" "a@x").2 = 1 :=
  ⟨⟨by decide, (get_last_row_id_spec.2.1 demoAuthors).2.2 (by decide)⟩,
    (get_last_row_id_spec.2.2 [] "a" "a@x").1⟩

end DbClass

namespace Osvg

/-! Injectivity of the composite `str(x) + "_" + str(y)` filter keys. -/

theorem toDigitsRev_listVal (fuel : Nat) : ∀ n : Nat, n ≤ fuel → listVal (toDigitsRev fuel n) = n := by
  induction fuel with
  | zero =>
    intro n h
    have : n = 0 := Nat.le_zero.mp h
    subst this
    rfl
  | succ f ih =>
    intro n h
    by_cases hn : n = 0
    · subst hn
      rfl
    · show listVal (if n = 0 then [] else n % 10 :: toDigitsRev f (n / 10)) = n
      rw [if_neg hn]
      show n % 10 + 10 * listVal (toDigitsRev f (n / 10)) = n
      have hdiv : n / 10 ≤ f := by
        have h1 : n / 10 < n := Nat.div_lt_self (Nat.pos_of_ne_zero hn) (by omega)
        omega
      rw [ih _ hdiv]
      omega

theorem natDigits_inj (m n : Nat) (h : natDigits m = natDigits n) : m = n := by
  unfold natDigits at h
  by_cases hm : m = 0 <;> by_cases hn : n = 0
  · omega
  · rw [if_pos hm, if_neg hn] at h
    have h2 : toDigitsRev n n = [0] := by
      have := congrArg List.reverse h
      simpa using this.symm
    have := toDigitsRev_listVal n n (Nat.le_refl n)
    rw [h2] at this
    simp [listVal] at this
    omega
  · rw [if_neg hm, if_pos hn] at h
    have h2 : toDigitsRev m m = [0] := by
      have := congrArg List.reverse h
      simpa using this
    have := toDigitsRev_listVal m m (Nat.le_refl m)
    rw [h2] at this
    simp [listVal] at this
    omega
  · rw [if_neg hm, if_neg hn] at h
    have h2 : toDigitsRev m m = toDigitsRev n n := by
      have := congrArg List.reverse h
      simpa using this
    have hm2 := toDigitsRev_listVal m m (Nat.le_refl m)
    have hn2 := toDigitsRev_listVal n n (Nat.le_refl n)
    rw [h2] at hm2
    omega

theorem toDigitsRev_lt_ten (fuel : Nat) : ∀ n : Nat, ∀ d ∈ toDigitsRev fuel n, d < 10 := by
  induction fuel with
  | zero => intro n d hd; cases hd
  | succ f ih =>
    intro n d hd
    by_cases hn : n = 0
    · subst hn; cases hd
    · show d < 10
      rw [show toDigitsRev (f + 1) n = n % 10 :: toDigitsRev f (n / 10) from by
        show (if n = 0 then [] else n % 10 :: toDigitsRev f (n / 10)) = _
        rw [if_neg hn]] at hd
      rcases List.mem_cons.mp hd with rfl | hd
      · exact Nat.mod_lt _ (by omega)
      · exact ih _ d hd

theorem natDigits_lt_ten (n : Nat) : ∀ d ∈ natDigits n, d < 10 := by
  intro d hd
  unfold natDigits at hd
  by_cases hn : n = 0
  · rw [if_pos hn] at hd
    simp at hd
    omega
  · rw [if_neg hn] at hd
    exact toDigitsRev_lt_ten n n d (List.mem_reverse.mp hd)

theorem digitChar_ne_underscore : ∀ d, d < 10 → Nat.digitChar d ≠ '_' := by decide

theorem digitChar_inj_lt : ∀ a, a < 10 → ∀ b, b < 10 → Nat.digitChar a = Nat.digitChar b → a = b := by
  decide

theorem map_digitChar_inj (l1 : List Nat) : ∀ l2 : List Nat, (∀ d ∈ l1, d < 10) →
    (∀ d ∈ l2, d < 10) → l1.map Nat.digitChar = l2.map Nat.digitChar → l1 = l2 := by
  induction l1 with
  | nil =>
    intro l2 _ _ h
    cases l2 with
    | nil => rfl
    | cons b bs => simp at h
  | cons a l ih =>
    intro l2 h1 h2 h
    cases l2 with
    | nil => simp at h
    | cons b bs =>
      simp only [List.map_cons, List.cons.injEq] at h
      have ha : a = b := digitChar_inj_lt a (h1 a (List.mem_cons_self a l)) b
        (h2 b (List.mem_cons_self b bs)) h.1
      have hl : l = bs := ih bs (fun d hd => h1 d (List.mem_cons_of_mem a hd))
        (fun d hd => h2 d (List.mem_cons_of_mem b hd)) h.2
      rw [ha, hl]

theorem natStr_inj (m n : Nat) (h : natStr m = natStr n) : m = n := by
  have hdata : (natDigits m).map Nat.digitChar = (natDigits n).map Nat.digitChar :=
    congrArg String.data h
  exact natDigits_inj m n
    (map_digitChar_inj _ _ (natDigits_lt_ten m) (natDigits_lt_ten n) hdata)

theorem natStr_no_underscore (n : Nat) : '_' ∉ (natStr n).data := by
  intro hmem
  rcases List.mem_map.mp hmem with ⟨d, hd, hdc⟩
  exact digitChar_ne_underscore d (natDigits_lt_ten n d hd) hdc

theorem underscore_split (a : List Char) : ∀ (c b d : List Char), '_' ∉ a → '_' ∉ c →
    a ++ '_' :: b = c ++ '_' :: d → a = c ∧ b = d := by
  induction a with
  | nil =>
    intro c b d _ hc h
    cases c with
    | nil => simpa using h
    | cons y cs =>
      exfalso
      simp only [List.nil_append, List.cons_append, List.cons.injEq] at h
      exact hc (h.1 ▸ List.mem_cons_self y cs)
  | cons x xs ih =>
    intro c b d ha hc h
    cases c with
    | nil =>
      exfalso
      simp only [List.nil_append, List.cons_append, List.cons.injEq] at h
      exact ha (h.1.symm ▸ List.mem_cons_self x xs)
    | cons y cs =>
      simp only [List.cons_append, List.cons.injEq] at h
      have hxs : xs = cs ∧ b = d := ih cs b d
        (fun hm => ha (List.mem_cons_of_mem x hm))
        (fun hm => hc (List.mem_cons_of_mem y hm)) h.2
      exact ⟨by rw [h.1, hxs.1], hxs.2⟩

theorem natPairKey_inj (a b c d : Nat)
    (h : natStr a ++ "_" ++ natStr b = natStr c ++ "_" ++ natStr d) : a = c ∧ b = d := by
  have hdata : (natStr a).data ++ '_' :: (natStr b).data
      = (natStr c).data ++ '_' :: (natStr d).data := by
    have h2 := congrArg String.data h
    simpa [String.data_append, List.append_assoc] using h2
  have hsplit := underscore_split _ _ _ _ (natStr_no_underscore a) (natStr_no_underscore c) hdata
  exact ⟨natStr_inj a c (congrArg String.mk hsplit.1), natStr_inj b d (congrArg String.mk hsplit.2)⟩

theorem gaKeyStr_inj (r s : GameAuthorRow) (h : gaKeyStr r = gaKeyStr s) : gaPair r = gaPair s := by
  have := natPairKey_inj _ _ _ _ h
  unfold gaPair
  rw [this.1, this.2]

theorem arKeyStr_inj (r s : AuthorRepoRow) (h : arKeyStr r = arKeyStr s) :
    r.author_id = s.author_id ∧ r.repo_id = s.repo_id :=
  natPairKey_inj _ _ _ _ h

theorem dgKeyStr_inj (r s : DatasetGameRow) (h : dgKeyStr r = dgKeyStr s) :
    r.dataset_id = s.dataset_id ∧ r.video_game_id = s.video_game_id :=
  natPairKey_inj _ _ _ _ h

end Osvg

namespace Osvg

/-! Further reconciliation lemmas: membership and key uniqueness. -/

theorem mem_reconcile_of_mem_existing [DecidableEq κ] (key : α → κ) (E C : List α)
    (e : α) (he : e ∈ E) : e ∈ reconcile key E C := by
  rw [reconcile_eq_append]
  exact List.mem_append_left _ he

theorem mem_reconcile [DecidableEq κ] (key : α → κ) (E C : List α)
    (x : α) (hx : x ∈ reconcile key E C) : x ∈ E ∨ x ∈ C := by
  rw [reconcile_eq_append] at hx
  rcases List.mem_append.mp hx with h | h
  · exact Or.inl h
  · exact Or.inr (List.mem_filter.mp h).1

theorem reconcile_covers [DecidableEq κ] (key : α → κ) (E C : List α)
    (c : α) (hc : c ∈ C) :
    c ∈ reconcile key E C ∨ ∃ e ∈ E, key e = key c := by
  by_cases h : key c ∈ E.map key
  · rcases List.mem_map.mp h with ⟨e, he, hk⟩
    exact Or.inr ⟨e, he, hk⟩
  · refine Or.inl ?_
    rw [reconcile_eq_append]
    refine List.mem_append_right _ (List.mem_filter.mpr ⟨hc, ?_⟩)
    simp [h]

theorem reconcile_nodup_of_congr [DecidableEq κ] (f : α → κ) (g : α → μ)
    (hcg : ∀ x y, g x = g y → f x = f y) (E C : List α)
    (h1 : (E.map g).Nodup) (h2 : (C.map g).Nodup) :
    ((reconcile f E C).map g).Nodup := by
  rw [reconcile_eq_append, List.map_append, List.nodup_append]
  refine ⟨h1, ?_, ?_⟩
  · exact h2.sublist (List.Sublist.map g (List.filter_sublist C))
  · intro z hz hz2
    rcases List.mem_map.mp hz with ⟨e, he, hke⟩
    rcases List.mem_map.mp hz2 with ⟨c, hc, hkc⟩
    have hfc : f c = f e := hcg c e (hkc.trans hke.symm)
    have hmem := (List.mem_filter.mp hc).2
    simp only [Bool.not_eq_eq_eq_not, Bool.not_true, decide_eq_false_iff_not] at hmem
    exact hmem (hfc ▸ List.mem_map_of_mem f he)

/-! Membership and uniqueness lemmas for the dedup helpers. -/

theorem uniqueFirstAux_cons [DecidableEq α] (seen : List α) (a : α) (rest : List α) :
    uniqueFirstAux seen (a :: rest) =
      if a ∈ seen then uniqueFirstAux seen rest else a :: uniqueFirstAux (a :: seen) rest := rfl

theorem uniqueFirstAux_spec [DecidableEq α] (l : List α) : ∀ seen : List α,
    (uniqueFirstAux seen l).Nodup ∧ ∀ x ∈ uniqueFirstAux seen l, x ∉ seen := by
  induction l with
  | nil =>
    intro seen
    exact ⟨List.nodup_nil, fun x hx => absurd hx (List.not_mem_nil x)⟩
  | cons a rest ih =>
    intro seen
    rw [uniqueFirstAux_cons]
    by_cases h : a ∈ seen
    · rw [if_pos h]
      exact ih seen
    · rw [if_neg h]
      obtain ⟨hnd, hni⟩ := ih (a :: seen)
      refine ⟨List.nodup_cons.mpr ⟨?_, hnd⟩, ?_⟩
      · intro hmem
        exact hni a hmem (List.mem_cons_self a seen)
      · intro x hx
        rcases List.mem_cons.mp hx with rfl | hx
        · exact h
        · intro hxseen
          exact hni x hx (List.mem_cons_of_mem a hxseen)

theorem mem_uniqueFirstAux [DecidableEq α] (l : List α) : ∀ (seen : List α) (x : α),
    x ∈ uniqueFirstAux seen l ↔ x ∈ l ∧ x ∉ seen := by
  induction l with
  | nil =>
    intro seen x
    show x ∈ ([] : List α) ↔ _
    simp
  | cons a rest ih =>
    intro seen x
    rw [uniqueFirstAux_cons]
    by_cases h : a ∈ seen
    · rw [if_pos h, ih]
      constructor
      · rintro ⟨hx, hs⟩
        exact ⟨List.mem_cons_of_mem a hx, hs⟩
      · rintro ⟨hx, hs⟩
        rcases List.mem_cons.mp hx with rfl | hx
        · exact absurd h hs
        · exact ⟨hx, hs⟩
    · rw [if_neg h]
      constructor
      · intro hx
        rcases List.mem_cons.mp hx with rfl | hx
        · exact ⟨List.mem_cons_self _ _, h⟩
        · obtain ⟨h1, h2⟩ := (ih (a :: seen) x).mp hx
          exact ⟨List.mem_cons_of_mem a h1, fun hs => h2 (List.mem_cons_of_mem a hs)⟩
      · rintro ⟨hx, hs⟩
        rcases List.mem_cons.mp hx with rfl | hx
        · exact List.mem_cons_self _ _
        · by_cases hxa : x = a
          · subst hxa
            exact List.mem_cons_self _ _
          · refine List.mem_cons_of_mem a ((ih (a :: seen) x).mpr ⟨hx, ?_⟩)
            intro hm
            rcases List.mem_cons.mp hm with h1 | h1
            · exact hxa h1
            · exact hs h1

theorem uniqueFirst_nodup [DecidableEq α] (l : List α) : (uniqueFirst l).Nodup :=
  (uniqueFirstAux_spec l []).1

theorem mem_uniqueFirst [DecidableEq α] (l : List α) (x : α) : x ∈ uniqueFirst l ↔ x ∈ l := by
  rw [uniqueFirst, mem_uniqueFirstAux]
  simp

theorem dedupByFirstAux_cons [DecidableEq κ] (key : α → κ) (seen : List κ) (a : α)
    (rest : List α) :
    dedupByFirstAux key seen (a :: rest) =
      if key a ∈ seen then dedupByFirstAux key seen rest
      else a :: dedupByFirstAux key (key a :: seen) rest := rfl

theorem dedupByFirstAux_spec [DecidableEq κ] (key : α → κ) (l : List α) : ∀ seen : List κ,
    ((dedupByFirstAux key seen l).map key).Nodup ∧
      ∀ x ∈ dedupByFirstAux key seen l, key x ∉ seen := by
  induction l with
  | nil =>
    intro seen
    exact ⟨List.nodup_nil, fun x hx => absurd hx (List.not_mem_nil x)⟩
  | cons a rest ih =>
    intro seen
    rw [dedupByFirstAux_cons]
    by_cases h : key a ∈ seen
    · rw [if_pos h]
      exact ih seen
    · rw [if_neg h]
      obtain ⟨hnd, hni⟩ := ih (key a :: seen)
      refine ⟨?_, ?_⟩
      · rw [List.map_cons]
        refine List.nodup_cons.mpr ⟨?_, hnd⟩
        intro hmem
        rcases List.mem_map.mp hmem with ⟨y, hy, hky⟩
        exact hni y hy (hky ▸ List.mem_cons_self (key a) seen)
      · intro x hx
        rcases List.mem_cons.mp hx with rfl | hx
        · exact h
        · intro hxseen
          exact hni x hx (List.mem_cons_of_mem (key a) hxseen)

theorem dedupByFirst_key_nodup [DecidableEq κ] (key : α → κ) (l : List α) :
    ((dedupByFirst key l).map key).Nodup :=
  (dedupByFirstAux_spec key l []).1

theorem dedupByFirstAux_sub [DecidableEq κ] (key : α → κ) (l : List α) :
    ∀ seen : List κ, ∀ x ∈ dedupByFirstAux key seen l, x ∈ l := by
  induction l with
  | nil => intro seen x hx; cases hx
  | cons a rest ih =>
    intro seen x hx
    rw [dedupByFirstAux_cons] at hx
    by_cases h : key a ∈ seen
    · rw [if_pos h] at hx
      exact List.mem_cons_of_mem a (ih seen x hx)
    · rw [if_neg h] at hx
      rcases List.mem_cons.mp hx with rfl | hx
      · exact List.mem_cons_self _ _
      · exact List.mem_cons_of_mem a (ih _ x hx)

/-! Position lookups are stable under appending rows. -/

theorem get?_append_some (l1 l2 : List α) : ∀ (n : Nat) (a : α),
    l1.get? n = some a → (l1 ++ l2).get? n = some a := by
  induction l1 with
  | nil =>
    intro n a h
    cases n <;> simp [List.get?] at h
  | cons x xs ih =>
    intro n a h
    cases n with
    | zero => simpa using h
    | succ m =>
      rw [List.get?_cons_succ] at h
      rw [List.cons_append, List.get?_cons_succ]
      exact ih m a h

theorem getById_append_some (l1 l2 : List α) (id : Nat) (a : α)
    (h : getById l1 id = some a) : getById (l1 ++ l2) id = some a := by
  unfold getById at h ⊢
  by_cases h0 : id = 0
  · rw [if_pos h0] at h
    cases h
  · rw [if_neg h0] at h ⊢
    exact get?_append_some _ _ _ _ h

/-! Key uniqueness of each candidate frame. -/

theorem map_key_map_build {β : Type} (L : List String) (f : String → β) (key : β → String)
    (hk : ∀ s, key (f s) = s) : (L.map f).map key = L := by
  induction L with
  | nil => rfl
  | cons a l ih => simp [hk, ih]

theorem authorCandidates_key_nodup (df : List CsvRow) :
    ((authorCandidates df).map (fun a => a.name)).Nodup := by
  unfold authorCandidates
  rw [map_key_map_build _ _ _ (fun s => rfl)]
  exact uniqueFirst_nodup _

theorem repoCandidates_key_nodup (df : List CsvRow) :
    ((repoCandidates df).map (fun rp => rp.url)).Nodup :=
  dedupByFirst_key_nodup _ _

theorem indexerCandidates_key_nodup (df : List CsvRow) :
    ((indexerCandidates df).map (fun ix => ix.url)).Nodup := by
  unfold indexerCandidates
  rw [map_key_map_build _ _ _ (fun s => rfl)]
  exact uniqueFirst_nodup _

theorem datasetCandidates_key_nodup (df : List CsvRow) :
    ((datasetCandidates df).map (fun d => d.url)).Nodup := by
  unfold datasetCandidates
  rw [map_key_map_build _ _ _ (fun s => rfl)]
  exact uniqueFirst_nodup _

theorem gameCandidates_key_nodup (auths : List AuthorRow) (reps : List RepoRow)
    (ixs : List IndexerRow) (df : List CsvRow) :
    ((gameCandidates auths reps ixs df).map vgKey).Nodup :=
  dedupByFirst_key_nodup _ _

theorem vgKey_congr (x y : GameRow) (h : vgKey x = vgKey y) :
    vgComposite x = vgComposite y := by
  have h1 : x.title = y.title := congrArg Prod.fst h
  have h2 : x.author_id = y.author_id := congrArg Prod.snd h
  unfold vgComposite
  rw [h1, h2]

end Osvg

namespace Osvg

/-! Structure of the derived `game_authors` rows. -/

theorem deriveGAFrom_cons (i : Nat) (g : GameRow) (gs : List GameRow) :
    deriveGameAuthorsFrom i (g :: gs) =
      match g.author_id with
      | some aid => ⟨i + 1, aid, "primary_developer"⟩ :: deriveGameAuthorsFrom (i + 1) gs
      | none => deriveGameAuthorsFrom (i + 1) gs := rfl

theorem deriveGAFrom_mem (gs : List GameRow) : ∀ i : Nat, ∀ r ∈ deriveGameAuthorsFrom i gs,
    ∃ j g, gs.get? j = some g ∧ g.author_id = some r.author_id ∧ r.game_id = i + j + 1 ∧
      r.role = "primary_developer" := by
  induction gs with
  | nil => intro i r hr; cases hr
  | cons g gs ih =>
    intro i r hr
    cases hga : g.author_id with
    | some aid =>
      rw [deriveGAFrom_cons] at hr
      simp only [hga] at hr
      rcases List.mem_cons.mp hr with rfl | hr
      · exact ⟨0, g, rfl, hga, by show i + 1 = i + 0 + 1; omega, rfl⟩
      · rcases ih (i + 1) r hr with ⟨j, g2, h1, h2, h3, h4⟩
        exact ⟨j + 1, g2, by rw [List.get?_cons_succ]; exact h1, h2, by omega, h4⟩
    | none =>
      rw [deriveGAFrom_cons] at hr
      simp only [hga] at hr
      rcases ih (i + 1) r hr with ⟨j, g2, h1, h2, h3, h4⟩
      exact ⟨j + 1, g2, by rw [List.get?_cons_succ]; exact h1, h2, by omega, h4⟩

theorem deriveGAFrom_complete (gs : List GameRow) : ∀ (i j : Nat) (g : GameRow) (aid : Nat),
    gs.get? j = some g → g.author_id = some aid →
    ∃ r ∈ deriveGameAuthorsFrom i gs,
      r.game_id = i + j + 1 ∧ r.author_id = aid ∧ r.role = "primary_developer" := by
  induction gs with
  | nil => intro i j g aid hj; cases j <;> simp [List.get?] at hj
  | cons g0 gs ih =>
    intro i j g aid hj hga
    cases j with
    | zero =>
      have hg : g0 = g := by simpa using hj
      subst hg
      rw [deriveGAFrom_cons]
      simp only [hga]
      exact ⟨⟨i + 1, aid, "primary_developer"⟩, List.mem_cons_self _ _,
        by show i + 1 = i + 0 + 1; omega, rfl, rfl⟩
    | succ m =>
      rw [List.get?_cons_succ] at hj
      rcases ih (i + 1) m g aid hj hga with ⟨r, hr, h1, h2, h3⟩
      refine ⟨r, ?_, by omega, h2, h3⟩
      rw [deriveGAFrom_cons]
      cases hga0 : g0.author_id with
      | some aid0 =>
        simp only [hga0]
        exact List.mem_cons_of_mem _ hr
      | none =>
        simp only [hga0]
        exact hr

theorem deriveGAFrom_gameId_gt (gs : List GameRow) : ∀ i : Nat,
    ∀ r ∈ deriveGameAuthorsFrom i gs, i < r.game_id := by
  induction gs with
  | nil => intro i r hr; cases hr
  | cons g gs ih =>
    intro i r hr
    rw [deriveGAFrom_cons] at hr
    cases hga : g.author_id with
    | some aid =>
      simp only [hga] at hr
      rcases List.mem_cons.mp hr with rfl | hr
      · show i < i + 1
        omega
      · have := ih (i + 1) r hr
        omega
    | none =>
      simp only [hga] at hr
      have := ih (i + 1) r hr
      omega

theorem deriveGAFrom_pairs_nodup (gs : List GameRow) : ∀ i : Nat,
    ((deriveGameAuthorsFrom i gs).map gaPair).Nodup := by
  induction gs with
  | nil => intro i; exact List.nodup_nil
  | cons g gs ih =>
    intro i
    rw [deriveGAFrom_cons]
    cases hga : g.author_id with
    | some aid =>
      simp only [hga, List.map_cons]
      refine List.nodup_cons.mpr ⟨?_, ih (i + 1)⟩
      intro hmem
      rcases List.mem_map.mp hmem with ⟨r, hr, hpr⟩
      have hgt := deriveGAFrom_gameId_gt gs (i + 1) r hr
      have : r.game_id = i + 1 := congrArg Prod.fst hpr
      omega
    | none =>
      simp only [hga]
      exact ih (i + 1)

/-! Structure of the derived `author_repos` rows. -/

theorem arInner_cons (aid : Nat) (nm : String) (ri : Nat) (r : RepoRow) (rs : List RepoRow) :
    arInner aid nm ri (r :: rs) =
      if r.author = nm then ⟨aid, ri + 1, "owner"⟩ :: arInner aid nm (ri + 1) rs
      else arInner aid nm (ri + 1) rs := rfl

theorem arInner_mem (rs : List RepoRow) : ∀ (aid : Nat) (nm : String) (ri : Nat),
    ∀ x ∈ arInner aid nm ri rs, ∃ j r, rs.get? j = some r ∧ r.author = nm ∧
      x.author_id = aid ∧ x.repo_id = ri + j + 1 ∧ x.contribution_type = "owner" := by
  induction rs with
  | nil => intro aid nm ri x hx; cases hx
  | cons r rs ih =>
    intro aid nm ri x hx
    rw [arInner_cons] at hx
    by_cases h : r.author = nm
    · rw [if_pos h] at hx
      rcases List.mem_cons.mp hx with rfl | hx
      · exact ⟨0, r, rfl, h, rfl, by show ri + 1 = ri + 0 + 1; omega, rfl⟩
      · rcases ih aid nm (ri + 1) x hx with ⟨j, r2, h1, h2, h3, h4, h5⟩
        exact ⟨j + 1, r2, by rw [List.get?_cons_succ]; exact h1, h2, h3, by omega, h5⟩
    · rw [if_neg h] at hx
      rcases ih aid nm (ri + 1) x hx with ⟨j, r2, h1, h2, h3, h4, h5⟩
      exact ⟨j + 1, r2, by rw [List.get?_cons_succ]; exact h1, h2, h3, by omega, h5⟩

theorem arInner_complete (rs : List RepoRow) : ∀ (aid : Nat) (nm : String) (ri j : Nat)
    (r : RepoRow), rs.get? j = some r → r.author = nm →
    ∃ x ∈ arInner aid nm ri rs,
      x.author_id = aid ∧ x.repo_id = ri + j + 1 ∧ x.contribution_type = "owner" := by
  induction rs with
  | nil => intro aid nm ri j r hj; cases j <;> simp [List.get?] at hj
  | cons r0 rs ih =>
    intro aid nm ri j r hj hnm
    cases j with
    | zero =>
      have hr : r0 = r := by simpa using hj
      subst hr
      rw [arInner_cons, if_pos hnm]
      exact ⟨⟨aid, ri + 1, "owner"⟩, List.mem_cons_self _ _, rfl,
        by show ri + 1 = ri + 0 + 1; omega, rfl⟩
    | succ m =>
      rw [List.get?_cons_succ] at hj
      rcases ih aid nm (ri + 1) m r hj hnm with ⟨x, hx, h1, h2, h3⟩
      refine ⟨x, ?_, h1, by omega, h3⟩
      rw [arInner_cons]
      by_cases h : r0.author = nm
      · rw [if_pos h]
        exact List.mem_cons_of_mem _ hx
      · rw [if_neg h]
        exact hx

theorem arOuter_append (ai : Nat) (rs : List RepoRow) (a : AuthorRow) (auths : List AuthorRow) :
    arOuter ai rs (a :: auths) = arInner (ai + 1) a.name 0 rs ++ arOuter (ai + 1) rs auths := rfl

theorem arOuter_mem (auths : List AuthorRow) : ∀ (ai : Nat) (rs : List RepoRow),
    ∀ x ∈ arOuter ai rs auths, ∃ i a, auths.get? i = some a ∧
      x ∈ arInner (ai + i + 1) a.name 0 rs := by
  induction auths with
  | nil => intro ai rs x hx; cases hx
  | cons a auths ih =>
    intro ai rs x hx
    rw [arOuter_append] at hx
    rcases List.mem_append.mp hx with hx | hx
    · exact ⟨0, a, rfl, by rw [show ai + 0 + 1 = ai + 1 from by omega]; exact hx⟩
    · rcases ih (ai + 1) rs x hx with ⟨i, a2, h1, h2⟩
      refine ⟨i + 1, a2, by rw [List.get?_cons_succ]; exact h1, ?_⟩
      rw [show ai + (i + 1) + 1 = (ai + 1) + i + 1 from by omega]
      exact h2

theorem arOuter_complete (auths : List AuthorRow) : ∀ (ai : Nat) (rs : List RepoRow)
    (i : Nat) (a : AuthorRow), auths.get? i = some a →
    ∀ x ∈ arInner (ai + i + 1) a.name 0 rs, x ∈ arOuter ai rs auths := by
  induction auths with
  | nil => intro ai rs i a hi; cases i <;> simp [List.get?] at hi
  | cons a0 auths ih =>
    intro ai rs i a hi x hx
    rw [arOuter_append]
    cases i with
    | zero =>
      have ha : a0 = a := by simpa using hi
      subst ha
      refine List.mem_append_left _ ?_
      rw [show ai + 0 + 1 = ai + 1 from by omega] at hx
      exact hx
    | succ m =>
      rw [List.get?_cons_succ] at hi
      refine List.mem_append_right _ ?_
      refine ih (ai + 1) rs m a hi x ?_
      rw [show (ai + 1) + m + 1 = ai + (m + 1) + 1 from by omega]
      exact hx

theorem deriveAR_mem (auths : List AuthorRow) (rs : List RepoRow) :
    ∀ x ∈ deriveAuthorRepos auths rs, ∃ i a j r,
      auths.get? i = some a ∧ rs.get? j = some r ∧ r.author = a.name ∧
      x.author_id = i + 1 ∧ x.repo_id = j + 1 ∧ x.contribution_type = "owner" := by
  intro x hx
  unfold deriveAuthorRepos at hx
  rw [mem_uniqueFirst] at hx
  rcases arOuter_mem auths 0 rs x hx with ⟨i, a, h1, h2⟩
  rcases arInner_mem rs (0 + i + 1) a.name 0 x h2 with ⟨j, r, h3, h4, h5, h6, h7⟩
  exact ⟨i, a, j, r, h1, h3, h4, by omega, by omega, h7⟩

theorem deriveAR_complete (auths : List AuthorRow) (rs : List RepoRow) :
    ∀ (i : Nat) (a : AuthorRow) (j : Nat) (r : RepoRow),
    auths.get? i = some a → rs.get? j = some r → r.author = a.name →
    ∃ x ∈ deriveAuthorRepos auths rs,
      x.author_id = i + 1 ∧ x.repo_id = j + 1 ∧ x.contribution_type = "owner" := by
  intro i a j r hi hj hnm
  rcases arInner_complete rs (0 + i + 1) a.name 0 j r hj hnm with ⟨x, hx, h1, h2, h3⟩
  refine ⟨x, ?_, by omega, by omega, h3⟩
  unfold deriveAuthorRepos
  rw [mem_uniqueFirst]
  exact arOuter_complete auths 0 rs i a hi x hx

/-! Structure of the derived `dataset_to_video_game` rows. -/

theorem dgGames_cons (ixs : List IndexerRow) (gi : Nat) (g : GameRow) (gs : List GameRow) :
    dgGames ixs gi (g :: gs) =
      match gameIndexerUrl ixs g with
      | some u => (gi + 1, u) :: dgGames ixs (gi + 1) gs
      | none => dgGames ixs (gi + 1) gs := rfl

theorem dgGames_mem (gs : List GameRow) : ∀ (ixs : List IndexerRow) (gi : Nat),
    ∀ x ∈ dgGames ixs gi gs, ∃ j g, gs.get? j = some g ∧
      gameIndexerUrl ixs g = some x.2 ∧ x.1 = gi + j + 1 := by
  induction gs with
  | nil => intro ixs gi x hx; cases hx
  | cons g gs ih =>
    intro ixs gi x hx
    rw [dgGames_cons] at hx
    cases hu : gameIndexerUrl ixs g with
    | some u =>
      simp only [hu] at hx
      rcases List.mem_cons.mp hx with rfl | hx
      · exact ⟨0, g, rfl, hu, by omega⟩
      · rcases ih ixs (gi + 1) x hx with ⟨j, g2, h1, h2, h3⟩
        exact ⟨j + 1, g2, by rw [List.get?_cons_succ]; exact h1, h2, by omega⟩
    | none =>
      simp only [hu] at hx
      rcases ih ixs (gi + 1) x hx with ⟨j, g2, h1, h2, h3⟩
      exact ⟨j + 1, g2, by rw [List.get?_cons_succ]; exact h1, h2, by omega⟩

theorem dgGames_complete (gs : List GameRow) : ∀ (ixs : List IndexerRow) (gi j : Nat)
    (g : GameRow) (u : String), gs.get? j = some g → gameIndexerUrl ixs g = some u →
    ∃ x ∈ dgGames ixs gi gs, x.1 = gi + j + 1 ∧ x.2 = u := by
  induction gs with
  | nil => intro ixs gi j g u hj; cases j <;> simp [List.get?] at hj
  | cons g0 gs ih =>
    intro ixs gi j g u hj hu
    cases j with
    | zero =>
      have hg : g0 = g := by simpa using hj
      subst hg
      rw [dgGames_cons]
      simp only [hu]
      exact ⟨(gi + 1, u), List.mem_cons_self _ _, by omega, rfl⟩
    | succ m =>
      rw [List.get?_cons_succ] at hj
      rcases ih ixs (gi + 1) m g u hj hu with ⟨x, hx, h1, h2⟩
      refine ⟨x, ?_, by omega, h2⟩
      rw [dgGames_cons]
      cases hu0 : gameIndexerUrl ixs g0 with
      | some u0 =>
        simp only [hu0]
        exact List.mem_cons_of_mem _ hx
      | none =>
        simp only [hu0]
        exact hx

theorem dgDatasets_mem (ds : List DatasetRow) : ∀ di : Nat, ∀ x ∈ dgDatasets di ds,
    ∃ j d, ds.get? j = some d ∧ x.1 = di + j + 1 ∧ x.2 = d.url := by
  induction ds with
  | nil => intro di x hx; cases hx
  | cons d ds ih =>
    intro di x hx
    rcases List.mem_cons.mp hx with rfl | hx
    · exact ⟨0, d, rfl, by omega, rfl⟩
    · rcases ih (di + 1) x hx with ⟨j, d2, h1, h2, h3⟩
      exact ⟨j + 1, d2, by rw [List.get?_cons_succ]; exact h1, by omega, h3⟩

theorem dgDatasets_complete (ds : List DatasetRow) : ∀ (di j : Nat) (d : DatasetRow),
    ds.get? j = some d → ∃ x ∈ dgDatasets di ds, x.1 = di + j + 1 ∧ x.2 = d.url := by
  induction ds with
  | nil => intro di j d hj; cases j <;> simp [List.get?] at hj
  | cons d0 ds ih =>
    intro di j d hj
    cases j with
    | zero =>
      have hd : d0 = d := by simpa using hj
      subst hd
      exact ⟨(di + 1, d0.url), List.mem_cons_self _ _, by omega, rfl⟩
    | succ m =>
      rw [List.get?_cons_succ] at hj
      rcases ih (di + 1) m d hj with ⟨x, hx, h1, h2⟩
      exact ⟨x, List.mem_cons_of_mem _ hx, by omega, h2⟩

theorem dgMatchesFor_mem (dsl : List (Nat × String)) : ∀ gp : Nat × String,
    ∀ x ∈ dgMatchesFor gp dsl, ∃ dp ∈ dsl, dp.2 = gp.2 ∧ x = (dp.1, gp.1) := by
  induction dsl with
  | nil => intro gp x hx; cases hx
  | cons dp dps ih =>
    intro gp x hx
    rw [show dgMatchesFor gp (dp :: dps) =
      (if dp.2 = gp.2 then (dp.1, gp.1) :: dgMatchesFor gp dps else dgMatchesFor gp dps)
      from rfl] at hx
    by_cases h : dp.2 = gp.2
    · rw [if_pos h] at hx
      rcases List.mem_cons.mp hx with rfl | hx
      · exact ⟨dp, List.mem_cons_self _ _, h, rfl⟩
      · rcases ih gp x hx with ⟨dq, h1, h2, h3⟩
        exact ⟨dq, List.mem_cons_of_mem _ h1, h2, h3⟩
    · rw [if_neg h] at hx
      rcases ih gp x hx with ⟨dq, h1, h2, h3⟩
      exact ⟨dq, List.mem_cons_of_mem _ h1, h2, h3⟩

theorem dgMatchesFor_complete (dsl : List (Nat × String)) : ∀ (gp dp : Nat × String),
    dp ∈ dsl → dp.2 = gp.2 → (dp.1, gp.1) ∈ dgMatchesFor gp dsl := by
  induction dsl with
  | nil => intro gp dp h; cases h
  | cons dq dps ih =>
    intro gp dp hdp heq
    rw [show dgMatchesFor gp (dq :: dps) =
      (if dq.2 = gp.2 then (dq.1, gp.1) :: dgMatchesFor gp dps else dgMatchesFor gp dps)
      from rfl]
    rcases List.mem_cons.mp hdp with rfl | hdp
    · rw [if_pos heq]
      exact List.mem_cons_self _ _
    · by_cases h : dq.2 = gp.2
      · rw [if_pos h]
        exact List.mem_cons_of_mem _ (ih gp dp hdp heq)
      · rw [if_neg h]
        exact ih gp dp hdp heq

theorem dgMerge_mem (gl : List (Nat × String)) : ∀ dl : List (Nat × String),
    ∀ x ∈ dgMerge gl dl, ∃ gp ∈ gl, ∃ dp ∈ dl, dp.2 = gp.2 ∧ x = (dp.1, gp.1) := by
  induction gl with
  | nil => intro dl x hx; cases hx
  | cons gp gps ih =>
    intro dl x hx
    rcases List.mem_append.mp hx with hx | hx
    · rcases dgMatchesFor_mem dl gp x hx with ⟨dp, h1, h2, h3⟩
      exact ⟨gp, List.mem_cons_self _ _, dp, h1, h2, h3⟩
    · rcases ih dl x hx with ⟨gq, h1, dp, h2, h3, h4⟩
      exact ⟨gq, List.mem_cons_of_mem _ h1, dp, h2, h3, h4⟩

theorem dgMerge_complete (gl : List (Nat × String)) : ∀ (dl : List (Nat × String))
    (gp dp : Nat × String), gp ∈ gl → dp ∈ dl → dp.2 = gp.2 →
    (dp.1, gp.1) ∈ dgMerge gl dl := by
  induction gl with
  | nil => intro dl gp dp h; cases h
  | cons gq gps ih =>
    intro dl gp dp hgp hdp heq
    rcases List.mem_cons.mp hgp with rfl | hgp
    · exact List.mem_append_left _ (dgMatchesFor_complete dl gp dp hdp heq)
    · exact List.mem_append_right _ (ih dl gp dp hgp hdp heq)

theorem deriveDG_mem (ds : List DatasetRow) (ixs : List IndexerRow) (gs : List GameRow) :
    ∀ x ∈ deriveDatasetGames ds ixs gs, ∃ di d gi g,
      ds.get? di = some d ∧ gs.get? gi = some g ∧ gameIndexerUrl ixs g = some d.url ∧
      x.dataset_id = di + 1 ∧ x.video_game_id = gi + 1 ∧ x.link_type = "referenced" := by
  intro x hx
  unfold deriveDatasetGames at hx
  rcases List.mem_map.mp hx with ⟨p, hp, hpx⟩
  rw [mem_uniqueFirst] at hp
  rcases dgMerge_mem _ _ p hp with ⟨gp, hgp, dp, hdp, hurl, hpeq⟩
  rcases dgGames_mem gs ixs 0 gp hgp with ⟨gj, g, hg1, hg2, hg3⟩
  rcases dgDatasets_mem ds 0 dp hdp with ⟨dj, d, hd1, hd2, hd3⟩
  refine ⟨dj, d, gj, g, hd1, hg1, ?_, ?_, ?_, ?_⟩
  · rw [hg2, ← hurl, hd3]
  · rw [← hpx]
    show p.1 = dj + 1
    rw [hpeq]
    omega
  · rw [← hpx]
    show p.2 = gj + 1
    rw [hpeq]
    omega
  · rw [← hpx]

theorem deriveDG_complete (ds : List DatasetRow) (ixs : List IndexerRow) (gs : List GameRow) :
    ∀ (di : Nat) (d : DatasetRow) (gi : Nat) (g : GameRow),
    ds.get? di = some d → gs.get? gi = some g → gameIndexerUrl ixs g = some d.url →
    ∃ x ∈ deriveDatasetGames ds ixs gs,
      x.dataset_id = di + 1 ∧ x.video_game_id = gi + 1 ∧ x.link_type = "referenced" := by
  intro di d gi g hd hg hu
  rcases dgGames_complete gs ixs 0 gi g d.url hg hu with ⟨gp, hgp, hg1, hg2⟩
  rcases dgDatasets_complete ds 0 di d hd with ⟨dp, hdp, hd1, hd2⟩
  have hmerge : (dp.1, gp.1) ∈ dgMerge (dgGames ixs 0 gs) (dgDatasets 0 ds) :=
    dgMerge_complete _ _ gp dp hgp hdp (by rw [hd2, hg2])
  refine ⟨⟨dp.1, gp.1, "referenced"⟩, ?_, by show dp.1 = di + 1; omega,
    by show gp.1 = gi + 1; omega, rfl⟩
  unfold deriveDatasetGames
  exact List.mem_map_of_mem _ ((mem_uniqueFirst _ _).mpr hmerge)

end Osvg

namespace Osvg

/-! Invariant preservation through a full load. -/

theorem reconcile_extends [DecidableEq κ] (key : α → κ) (E C : List α) :
    ∃ s, reconcile key E C = E ++ s :=
  ⟨_, reconcile_eq_append key E C⟩

theorem gameIndexerUrl_append (ixs I : List IndexerRow) (g : GameRow) (u : String)
    (h : gameIndexerUrl ixs g = some u) : gameIndexerUrl (ixs ++ I) g = some u := by
  unfold gameIndexerUrl at h ⊢
  cases hgi : g.indexer_id with
  | none =>
    simp only [hgi] at h
    cases h
  | some iid =>
    simp only [hgi] at h ⊢
    rcases Option.map_eq_some'.mp h with ⟨ix, hix, hixu⟩
    rw [getById_append_some _ I iid ix hix]
    simpa using hixu

theorem invNodups_load (db : DB) (df : List CsvRow) (h : InvNodups db) :
    InvNodups (load_csv_data db df) := by
  obtain ⟨h1, h2, h3, h4, h5⟩ := h
  refine ⟨?_, ?_, ?_, ?_, ?_⟩
  · rw [load_csv_data_phases, cm_authors, ep_authors]
    exact reconcile_nodup_of_congr _ _ (fun x y hxy => hxy) _ _ h1 (authorCandidates_key_nodup df)
  · rw [load_csv_data_phases, cm_repos, ep_repos]
    exact reconcile_nodup_of_congr _ _ (fun x y hxy => hxy) _ _ h2 (repoCandidates_key_nodup df)
  · rw [load_csv_data_phases, cm_indexers, ep_indexers]
    exact reconcile_nodup_of_congr _ _ (fun x y hxy => hxy) _ _ h3 (indexerCandidates_key_nodup df)
  · rw [load_csv_data_phases, cm_datasets, ep_datasets]
    exact reconcile_nodup_of_congr _ _ (fun x y hxy => hxy) _ _ h4 (datasetCandidates_key_nodup df)
  · rw [load_csv_data_phases, cm_video, ep_video]
    exact reconcile_nodup_of_congr vgComposite vgKey vgKey_congr _ _ h5
      (gameCandidates_key_nodup _ _ _ df)

theorem invGA_load (db : DB) (df : List CsvRow) (hGA : InvGameAuthors db) :
    InvGameAuthors (load_csv_data db df) := by
  obtain ⟨hnd, hcor, hcom⟩ := hGA
  obtain ⟨V, hV⟩ := reconcile_extends vgComposite db.video_games
    (gameCandidates (entityPhase db df).authors (entityPhase db df).repos
      (entityPhase db df).indexers df)
  have hEv : (entityPhase db df).video_games = db.video_games ++ V := by
    rw [ep_video]
    exact hV
  have hfv : (load_csv_data db df).video_games = (entityPhase db df).video_games := by
    rw [load_csv_data_phases, cm_video]
  have hfGA : (load_csv_data db df).game_authors =
      reconcile gaKeyStr db.game_authors
        (deriveGameAuthors (entityPhase db df).video_games) := by
    rw [load_csv_data_phases, cm_game_authors, ep_game_authors]
  refine ⟨?_, ?_, ?_⟩
  · rw [hfGA]
    refine reconcile_nodup_of_congr gaKeyStr gaPair ?_ _ _ hnd (deriveGAFrom_pairs_nodup _ 0)
    intro x y hxy
    have hx1 : x.game_id = y.game_id := congrArg Prod.fst hxy
    have hx2 : x.author_id = y.author_id := congrArg Prod.snd hxy
    unfold gaKeyStr
    rw [hx1, hx2]
  · intro r hr
    rw [hfGA] at hr
    rcases mem_reconcile _ _ _ r hr with hold | hnew
    · rcases hcor r hold with ⟨g, hg, hle, hga, hrole⟩
      refine ⟨g, ?_, hle, hga, hrole⟩
      rw [hfv, hEv]
      exact get?_append_some _ _ _ _ hg
    · rcases deriveGAFrom_mem _ 0 r hnew with ⟨j, g, hj, hga, hgid, hrole⟩
      refine ⟨g, ?_, by omega, hga, hrole⟩
      rw [hfv, show r.game_id - 1 = j from by omega]
      exact hj
  · intro i g aid hg hga
    rw [hfv] at hg
    rcases deriveGAFrom_complete _ 0 i g aid hg hga with ⟨c, hc, hcid, hcaid, hcrole⟩
    rcases reconcile_covers gaKeyStr db.game_authors _ c hc with hmem | ⟨e, he, hke⟩
    · refine ⟨c, ?_, by omega, hcaid⟩
      rw [hfGA]
      exact hmem
    · have hpair := gaKeyStr_inj e c hke
      have he1 : e.game_id = c.game_id := congrArg Prod.fst hpair
      have he2 : e.author_id = c.author_id := congrArg Prod.snd hpair
      refine ⟨e, ?_, by omega, by omega⟩
      rw [hfGA]
      exact mem_reconcile_of_mem_existing _ _ _ e he

theorem invAR_load (db : DB) (df : List CsvRow) (hAR : InvAuthorRepos db) :
    InvAuthorRepos (load_csv_data db df) := by
  obtain ⟨hcor, hcom⟩ := hAR
  obtain ⟨A, hA⟩ := reconcile_extends (fun a => a.name) db.authors (authorCandidates df)
  have hEa : (entityPhase db df).authors = db.authors ++ A := by
    rw [ep_authors]
    exact hA
  obtain ⟨R, hR⟩ := reconcile_extends (fun rp => rp.url) db.repos (repoCandidates df)
  have hEr : (entityPhase db df).repos = db.repos ++ R := by
    rw [ep_repos]
    exact hR
  have hfa : (load_csv_data db df).authors = (entityPhase db df).authors := by
    rw [load_csv_data_phases, cm_authors]
  have hfr : (load_csv_data db df).repos = (entityPhase db df).repos := by
    rw [load_csv_data_phases, cm_repos]
  have hfAR : (load_csv_data db df).author_repos =
      reconcile arKeyStr db.author_repos
        (deriveAuthorRepos (entityPhase db df).authors (entityPhase db df).repos) := by
    rw [load_csv_data_phases, cm_author_repos, ep_author_repos]
  refine ⟨?_, ?_⟩
  · intro r hr
    rw [hfAR] at hr
    rcases mem_reconcile _ _ _ r hr with hold | hnew
    · rcases hcor r hold with ⟨a, rp, ha, hrp, h1, h2, h3, h4⟩
      refine ⟨a, rp, ?_, ?_, h1, h2, h3, h4⟩
      · rw [hfa, hEa]
        exact get?_append_some _ _ _ _ ha
      · rw [hfr, hEr]
        exact get?_append_some _ _ _ _ hrp
    · rcases deriveAR_mem _ _ r hnew with ⟨i, a, j, rp, ha, hrp, hnm, h1, h2, h3⟩
      refine ⟨a, rp, ?_, ?_, by omega, by omega, hnm, h3⟩
      · rw [hfa, show r.author_id - 1 = i from by omega]
        exact ha
      · rw [hfr, show r.repo_id - 1 = j from by omega]
        exact hrp
  · intro ai a ri rp ha hrp hnm
    rw [hfa] at ha
    rw [hfr] at hrp
    rcases deriveAR_complete _ _ ai a ri rp ha hrp hnm with ⟨c, hc, h1, h2, h3⟩
    rcases reconcile_covers arKeyStr db.author_repos _ c hc with hmem | ⟨e, he, hke⟩
    · refine ⟨c, ?_, by omega, by omega⟩
      rw [hfAR]
      exact hmem
    · have hpair := arKeyStr_inj e c hke
      refine ⟨e, ?_, by omega, by omega⟩
      rw [hfAR]
      exact mem_reconcile_of_mem_existing _ _ _ e he

theorem invDG_load (db : DB) (df : List CsvRow) (hDG : InvDatasetGames db) :
    InvDatasetGames (load_csv_data db df) := by
  obtain ⟨hcor, hcom⟩ := hDG
  obtain ⟨D, hD⟩ := reconcile_extends (fun d => d.url) db.datasets (datasetCandidates df)
  have hEd : (entityPhase db df).datasets = db.datasets ++ D := by
    rw [ep_datasets]
    exact hD
  obtain ⟨I, hI⟩ := reconcile_extends (fun ix => ix.url) db.indexers (indexerCandidates df)
  have hEi : (entityPhase db df).indexers = db.indexers ++ I := by
    rw [ep_indexers]
    exact hI
  obtain ⟨V, hV⟩ := reconcile_extends vgComposite db.video_games
    (gameCandidates (entityPhase db df).authors (entityPhase db df).repos
      (entityPhase db df).indexers df)
  have hEv : (entityPhase db df).video_games = db.video_games ++ V := by
    rw [ep_video]
    exact hV
  have hfd : (load_csv_data db df).datasets = (entityPhase db df).datasets := by
    rw [load_csv_data_phases, cm_datasets]
  have hfi : (load_csv_data db df).indexers = (entityPhase db df).indexers := by
    rw [load_csv_data_phases, cm_indexers]
  have hfv : (load_csv_data db df).video_games = (entityPhase db df).video_games := by
    rw [load_csv_data_phases, cm_video]
  have hfDG : (load_csv_data db df).dataset_to_video_game =
      reconcile dgKeyStr db.dataset_to_video_game
        (deriveDatasetGames (entityPhase db df).datasets (entityPhase db df).indexers
          (entityPhase db df).video_games) := by
    rw [load_csv_data_phases, cm_dataset_games, ep_dataset_games]
  refine ⟨?_, ?_⟩
  · intro r hr
    rw [hfDG] at hr
    rcases mem_reconcile _ _ _ r hr with hold | hnew
    · rcases hcor r hold with ⟨d, g, hd, hg, h1, h2, hu⟩
      refine ⟨d, g, ?_, ?_, h1, h2, ?_⟩
      · rw [hfd, hEd]
        exact get?_append_some _ _ _ _ hd
      · rw [hfv, hEv]
        exact get?_append_some _ _ _ _ hg
      · rw [hfi, hEi]
        exact gameIndexerUrl_append _ _ _ _ hu
    · rcases deriveDG_mem _ _ _ r hnew with ⟨di, d, gi, g, hd, hg, hu, h1, h2, h3⟩
      refine ⟨d, g, ?_, ?_, by omega, by omega, ?_⟩
      · rw [hfd, show r.dataset_id - 1 = di from by omega]
        exact hd
      · rw [hfv, show r.video_game_id - 1 = gi from by omega]
        exact hg
      · rw [hfi]
        exact hu
  · intro di d gi g u hd hg hu hueq
    rw [hfd] at hd
    rw [hfv] at hg
    rw [hfi] at hu
    rw [hueq] at hu
    rcases deriveDG_complete _ _ _ di d gi g hd hg hu with ⟨c, hc, h1, h2, h3⟩
    rcases reconcile_covers dgKeyStr db.dataset_to_video_game _ c hc with hmem | ⟨e, he, hke⟩
    · refine ⟨c, ?_, by omega, by omega⟩
      rw [hfDG]
      exact hmem
    · have hpair := dgKeyStr_inj e c hke
      refine ⟨e, ?_, by omega, by omega⟩
      rw [hfDG]
      exact mem_reconcile_of_mem_existing _ _ _ e he

theorem inv_empty : Inv emptyDB := by
  refine ⟨⟨List.nodup_nil, List.nodup_nil, List.nodup_nil, List.nodup_nil, List.nodup_nil⟩,
    ⟨List.nodup_nil, ?_, ?_⟩, ⟨?_, ?_⟩, ⟨?_, ?_⟩⟩
  · intro r hr
    exact absurd hr (List.not_mem_nil r)
  · intro i g aid hg
    cases i <;> simp [emptyDB, List.get?] at hg
  · intro r hr
    exact absurd hr (List.not_mem_nil r)
  · intro ai a ri rp ha
    cases ai <;> simp [emptyDB, List.get?] at ha
  · intro r hr
    exact absurd hr (List.not_mem_nil r)
  · intro di d gi g u hd
    cases di <;> simp [emptyDB, List.get?] at hd

theorem inv_load (db : DB) (df : List CsvRow) (h : Inv db) : Inv (load_csv_data db df) :=
  ⟨invNodups_load db df h.1, invGA_load db df h.2.1, invAR_load db df h.2.2.1,
    invDG_load db df h.2.2.2⟩

theorem inv_loadAll (dfs : List (List CsvRow)) : Inv (loadAll dfs) := by
  have main : ∀ (L : List (List CsvRow)) (db : DB), Inv db → Inv (L.foldl load_csv_data db) := by
    intro L
    induction L with
    | nil => intro db h; exact h
    | cons df L ih =>
      intro db h
      exact ih _ (inv_load db df h)
  exact main dfs emptyDB inv_empty

end Osvg

namespace Osvg

/-- C3: after any sequence of full loads on a fresh schema, natural keys are
unique — no two authors share a name, no two repos, indexers, or datasets
share a url, and no two video games share the `(title, author_id)` pair. -/
theorem natural_keys_unique (dfs : List (List CsvRow)) :
    ((loadAll dfs).authors.map (fun a => a.name)).Nodup ∧
    ((loadAll dfs).repos.map (fun rp => rp.url)).Nodup ∧
    ((loadAll dfs).indexers.map (fun ix => ix.url)).Nodup ∧
    ((loadAll dfs).datasets.map (fun d => d.url)).Nodup ∧
    ((loadAll dfs).video_games.map vgKey).Nodup := by
  obtain ⟨⟨h1, h2, h3, h4, h5⟩, _, _, _⟩ := inv_loadAll dfs
  exact ⟨h1, h2, h3, h4, h5⟩

/-! Counting helpers for the exactly-one statement. -/

theorem countP_le_count_of_key [DecidableEq κ] (l : List α) (p : α → Bool) (f : α → κ) (k : κ)
    (hp : ∀ y ∈ l, p y = true → f y = k) : l.countP p ≤ (l.map f).count k := by
  induction l with
  | nil => simp
  | cons a t ih =>
    have iht : t.countP p ≤ (t.map f).count k :=
      ih (fun y hy hpy => hp y (List.mem_cons_of_mem a hy) hpy)
    by_cases hpa : p a = true
    · have hfa : f a = k := hp a (List.mem_cons_self a t) hpa
      have e1 : (a :: t).countP p = t.countP p + 1 := by
        simp [List.countP_cons, hpa]
      have e2 : ((a :: t).map f).count k = (t.map f).count k + 1 := by
        rw [List.map_cons, hfa]
        exact List.count_cons_self _ _
      omega
    · have hpa2 : p a = false := by
        cases h : p a
        · rfl
        · exact absurd h hpa
      have e1 : (a :: t).countP p = t.countP p := by
        simp [List.countP_cons, hpa2]
      have e2 : (t.map f).count k ≤ ((a :: t).map f).count k := by
        rw [List.map_cons]
        exact List.Sublist.count_le (List.sublist_cons_self _ _) k
      omega

theorem countP_eq_one_of_key [DecidableEq κ] (l : List α) (p : α → Bool) (f : α → κ)
    (x : α) (hx : x ∈ l) (hpx : p x = true) (hN : (l.map f).Nodup)
    (hp : ∀ y ∈ l, p y = true → f y = f x) : l.countP p = 1 := by
  have h1 : 0 < l.countP p := List.countP_pos_iff.mpr ⟨x, hx, hpx⟩
  have h2 : l.countP p ≤ (l.map f).count (f x) := countP_le_count_of_key l p f (f x) hp
  have h3 : (l.map f).count (f x) ≤ 1 := List.nodup_iff_count_le_one.mp hN (f x)
  omega

/-- C5: after any sequence of full loads on a fresh schema, every stored
video game with a non-null `author_id` has exactly one `game_authors` row for
its `(game_id, author_id)` pair, and that unique row carries the
`primary_developer` role (counting with the role constraint also gives one);
moreover no `game_authors` row points at a game whose `author_id` is null. -/
theorem game_author_rows_exact (dfs : List (List CsvRow)) :
    (∀ i g aid, (loadAll dfs).video_games.get? i = some g → g.author_id = some aid →
      ((loadAll dfs).game_authors.countP
          (fun r => decide (r.game_id = i + 1 ∧ r.author_id = aid ∧
            r.role = "primary_developer"))) = 1 ∧
      ((loadAll dfs).game_authors.countP
          (fun r => decide (r.game_id = i + 1 ∧ r.author_id = aid))) = 1) ∧
    (∀ r ∈ (loadAll dfs).game_authors, ∀ g,
      (loadAll dfs).video_games.get? (r.game_id - 1) = some g → g.author_id ≠ none) := by
  obtain ⟨_, ⟨hnd, hcor, hcom⟩, _, _⟩ := inv_loadAll dfs
  constructor
  · intro i g aid hg hga
    rcases hcom i g aid hg hga with ⟨r, hr, h1, h2⟩
    rcases hcor r hr with ⟨g2, hg2, hle, hga2, hrole⟩
    constructor
    · refine countP_eq_one_of_key _ _ gaPair r hr ?_ hnd ?_
      · simp [h1, h2, hrole]
      · intro y hy hpy
        simp only [decide_eq_true_eq] at hpy
        unfold gaPair
        rw [hpy.1, hpy.2.1, h1, h2]
    · refine countP_eq_one_of_key _ _ gaPair r hr ?_ hnd ?_
      · simp [h1, h2]
      · intro y hy hpy
        simp only [decide_eq_true_eq] at hpy
        unfold gaPair
        rw [hpy.1, hpy.2, h1, h2]
  · intro r hr g hgget
    rcases hcor r hr with ⟨g2, hg2, hle, hga2, _⟩
    have hgg : g2 = g := by
      rw [hg2] at hgget
      exact Option.some.inj hgget
    rw [← hgg, hga2]
    simp

/-- C5 witness: on the one-row demo load, the game at position 0 has author
id 1 and exactly one matching `game_authors` row. -/
theorem game_author_rows_exact_witness :
    ((loadAll demoDfs).video_games.get? 0 = some demoGame ∧ demoGame.author_id = some 1) ∧
    ((loadAll demoDfs).game_authors.countP
        (fun r => decide (r.game_id = 0 + 1 ∧ r.author_id = 1))) = 1 :=
  ⟨⟨by decide, by decide⟩,
    ((game_author_rows_exact demoDfs).1 0 demoGame 1 (by decide) (by decide)).2⟩

/-- C6: after any sequence of full loads on a fresh schema, the derived link
tables are exactly the equality joins of the current entity state: an
`author_repos` row with contribution type `owner` exists precisely for the
(author, repo) position pairs whose stored owner-name string equals the
author name, and a `dataset_to_video_game` row exists precisely for the
(dataset, game) position pairs whose associated indexer URL equals the
dataset URL. -/
theorem derived_links_exact (dfs : List (List CsvRow)) :
    (∀ ai a ri rp, (loadAll dfs).authors.get? ai = some a →
      (loadAll dfs).repos.get? ri = some rp → rp.author = a.name →
      ∃ r ∈ (loadAll dfs).author_repos, r.author_id = ai + 1 ∧ r.repo_id = ri + 1 ∧
        r.contribution_type = "owner") ∧
    (∀ r ∈ (loadAll dfs).author_repos, ∃ a rp,
      (loadAll dfs).authors.get? (r.author_id - 1) = some a ∧
      (loadAll dfs).repos.get? (r.repo_id - 1) = some rp ∧ rp.author = a.name ∧
      r.contribution_type = "owner") ∧
    (∀ di d gi g, (loadAll dfs).datasets.get? di = some d →
      (loadAll dfs).video_games.get? gi = some g →
      gameIndexerUrl (loadAll dfs).indexers g = some d.url →
      ∃ r ∈ (loadAll dfs).dataset_to_video_game,
        r.dataset_id = di + 1 ∧ r.video_game_id = gi + 1) ∧
    (∀ r ∈ (loadAll dfs).dataset_to_video_game, ∃ d g,
      (loadAll dfs).datasets.get? (r.dataset_id - 1) = some d ∧
      (loadAll dfs).video_games.get? (r.video_game_id - 1) = some g ∧
      gameIndexerUrl (loadAll dfs).indexers g = some d.url) := by
  obtain ⟨_, _, ⟨hARcor, hARcom⟩, ⟨hDGcor, hDGcom⟩⟩ := inv_loadAll dfs
  refine ⟨?_, ?_, ?_, ?_⟩
  · intro ai a ri rp ha hrp hnm
    rcases hARcom ai a ri rp ha hrp hnm with ⟨r, hr, h1, h2⟩
    rcases hARcor r hr with ⟨a2, rp2, _, _, _, _, _, howner⟩
    exact ⟨r, hr, h1, h2, howner⟩
  · intro r hr
    rcases hARcor r hr with ⟨a, rp, ha, hrp, _, _, hnm, howner⟩
    exact ⟨a, rp, ha, hrp, hnm, howner⟩
  · intro di d gi g hd hg hu
    exact hDGcom di d gi g d.url hd hg hu rfl
  · intro r hr
    rcases hDGcor r hr with ⟨d, g, hd, hg, _, _, hu⟩
    exact ⟨d, g, hd, hg, hu⟩

/-- C6 witness: on the demo load, author 0 (`acme`) and repo 0 (owner string
`acme`) are linked in `author_repos`, and dataset 0 is linked to game 0 whose
indexer URL matches. -/
theorem derived_links_exact_witness :
    ((loadAll demoDfs).authors.get? 0 = some ⟨"acme", "acme@github.com", true⟩ ∧
      (loadAll demoDfs).repos.get? 0 =
        some ⟨"widget", "acme", "https://github.com/acme/widget.git", true⟩) ∧
    (∃ r ∈ (loadAll demoDfs).author_repos, r.author_id = 0 + 1 ∧ r.repo_id = 0 + 1 ∧
      r.contribution_type = "owner") ∧
    (∃ r ∈ (loadAll demoDfs).dataset_to_video_game,
      r.dataset_id = 0 + 1 ∧ r.video_game_id = 0 + 1) :=
  ⟨⟨by decide, by decide⟩,
    (derived_links_exact demoDfs).1 0 ⟨"acme", "acme@github.com", true⟩ 0
      ⟨"widget", "acme", "https://github.com/acme/widget.git", true⟩
      (by decide) (by decide) (by decide),
    (derived_links_exact demoDfs).2.2.1 0 ⟨"d1", "community", "http://x/d1", "game_collection", true⟩
      0 demoGame (by decide) (by decide) (by decide)⟩

end Osvg
